import Mathlib

/-
Verification of the Manus trading bot (Kraken futures), file src/tradingBot.js.

The JavaScript source is shallowly embedded: JS numbers are modelled as exact
rationals (ℚ), JS strings as `List Char`, fallible operations as `Option`, and
the stateful pieces (the rolling nonce counter, the notes file) as explicit
state passing.  Every definition is translated from the source file; the few
definitions written from the specification's words instead carry `Spec` in
their name and a doc comment saying so.
-/

namespace TB

/-- Shorthand turning a Lean string literal into the `List Char` representation
used for JS strings throughout this development. -/
def cs (s : String) : List Char := s.data

/-! ## Section 1: configuration constants (src/tradingBot.js lines 61-65) -/

def LEVERAGE : ℚ := 10
def LEVERAGE_SAFETY_FACTOR : ℚ := 9 / 10
def RISK_PER_TRADE_PERCENT : ℚ := 1
def STOP_LOSS_PERCENT : ℚ := 2
def MINIMUM_TRADE_USD : ℚ := 10
def FUTURES_SYMBOL : List Char := cs "pf_xbtusd"

/-! ## Position sizer (src/tradingBot.js lines 964-996, `calculateTradeSize`) -/

/-- Model of JavaScript `parseFloat(x.toFixed(4))` for the (non-negative, exact)
rationals arising here: round to the nearest multiple of 1/10000, half away
from zero, which on non-negative arguments is `⌊x·10⁴ + 1/2⌋ / 10⁴`. -/
def toFixed4 (q : ℚ) : ℚ := (round (q * 10000) : ℚ) / 10000

/-- Embedding of `calculateTradeSize(availableMargin, currentPrice)`
(src/tradingBot.js lines 964-996), with the module constants inlined exactly as
the source reads them. -/
def calculateTradeSize (availableMargin currentPrice : ℚ) : ℚ :=
  let maxLeveragedPositionUSD := availableMargin * LEVERAGE * LEVERAGE_SAFETY_FACTOR
  let riskAmountUSD := availableMargin * (RISK_PER_TRADE_PERCENT / 100)
  let riskDefinedPositionUSD := riskAmountUSD / (STOP_LOSS_PERCENT / 100)
  let finalPositionUSD := min maxLeveragedPositionUSD riskDefinedPositionUSD
  let finalPositionUSD :=
    if finalPositionUSD < MINIMUM_TRADE_USD then MINIMUM_TRADE_USD else finalPositionUSD
  if finalPositionUSD > maxLeveragedPositionUSD then 0
  else toFixed4 (finalPositionUSD / currentPrice)

/-- Position sizing as the specification's claim words it: with
`max = availableMargin·10·0.9`, `risk = (availableMargin·0.01)/0.02`, and
`target = min(max, risk)` raised to 10 when it is below 10, the result is 0
when the raised target exceeds `max`, and otherwise `target/currentPrice`
rounded to 4 decimal places.  Written from the claim's words, to be compared
with `calculateTradeSize` above. -/
def calculateTradeSizeSpec (availableMargin currentPrice : ℚ) : ℚ :=
  let maxL := availableMargin * 10 * (9 / 10)
  let risk := (availableMargin * (1 / 100)) / (2 / 100)
  let target := min maxL risk
  let raised := if target < 10 then 10 else target
  if raised > maxL then 0 else toFixed4 (raised / currentPrice)

/-! ## Nonce generator (src/tradingBot.js lines 71-75, `createNonce`)

```js
let nonceCounter = 0;
function createNonce() {
    if (nonceCounter > 9999) nonceCounter = 0;
    return Date.now() + ('0000' + nonceCounter++).slice(-5);
}
```

The returned value is the string concatenation of the decimal milliseconds
timestamp and an exactly-5-digit zero-padded counter (the counter stays in
0..9999 at use sites, so the suffix is always 5 characters).  Concatenating a
fixed-width 5-digit decimal suffix to the decimal timestamp is the same as the
number `t * 100000 + c`, which is how a nonce value is modelled here; equality
and order of nonce strings of one process agree with equality and order of
these numbers. -/

/-- Single call to `createNonce`: given the current clock value `t` and the
stored `nonceCounter` value `c`, return the produced nonce value and the new
stored counter. -/
def nonceStep (t c : ℕ) : ℕ × ℕ :=
  let c' := if c > 9999 then 0 else c
  (t * 100000 + c', c' + 1)

/-- Run of successive `createNonce` calls: `ts` lists the `Date.now()` value
observed by each call in order, `c` is the stored counter at the start.
Returns the list of produced nonces and the final stored counter. -/
def nonceRun (c : ℕ) : List ℕ → List ℕ × ℕ
  | [] => ([], c)
  | t :: ts =>
    let p := nonceStep t c
    let r := nonceRun p.2 ts
    (p.1 :: r.1, r.2)

/-- Boolean guard under which the amended monotonicity claim holds: scanning
the run, whenever the counter is about to wrap (stored value above 9999), the
clock must have strictly advanced since the previous call. -/
def wrapSafe : ℕ → List ℕ → Bool
  | _, [] => true
  | _, [_] => true
  | c, t₁ :: t₂ :: ts =>
    let c₂ := (nonceStep t₁ c).2
    (decide (c₂ ≤ 9999) || decide (t₁ < t₂)) && wrapSafe c₂ (t₂ :: ts)

/-! ### Nonce run lemmas -/

/-- Closed form of `nonceRun` while the counter never wraps: starting from
counter `c` with `c + n ≤ 10000`, `n` calls all at clock value `t` return the
nonces `t·10⁵ + c, …, t·10⁵ + (c+n-1)` and leave the counter at `c + n`. -/
theorem nonceRun_replicate (n : ℕ) : ∀ c : ℕ, ∀ t : ℕ, c + n ≤ 10000 →
    nonceRun c (List.replicate n t) =
      (((List.range n).map fun i => t * 100000 + (c + i)), c + n) := by
  induction n with
  | zero => intro c t _; simp [nonceRun]
  | succ n ih =>
    intro c t h
    have hc : ¬ c > 9999 := by omega
    rw [List.replicate_succ]
    simp only [nonceRun, nonceStep, hc, if_false]
    rw [ih (c + 1) t (by omega)]
    rw [List.range_succ_eq_map]
    simp only [List.map_cons, List.map_map, Prod.mk.injEq, List.cons.injEq]
    refine ⟨⟨by omega, ?_⟩, by omega⟩
    apply List.map_congr_left
    intro i _
    simp [Function.comp]
    omega

/-- Splitting a `nonceRun` over an appended list of call times. -/
theorem nonceRun_append (c : ℕ) (xs ys : List ℕ) :
    nonceRun c (xs ++ ys) =
      ((nonceRun c xs).1 ++ (nonceRun (nonceRun c xs).2 ys).1,
        (nonceRun (nonceRun c xs).2 ys).2) := by
  induction xs generalizing c with
  | nil => simp [nonceRun]
  | cons t ts ih => simp [nonceRun, ih]

/-- Unfolding lemma for a single call at the head of a run. -/
theorem nonceRun_cons (c t : ℕ) (ts : List ℕ) :
    nonceRun c (t :: ts) =
      ((nonceStep t c).1 :: (nonceRun (nonceStep t c).2 ts).1,
        (nonceRun (nonceStep t c).2 ts).2) := rfl

/-- Strict growth across one pair of consecutive calls, given a non-decreasing
clock and the wrap-safety condition for that pair. -/
theorem nonceStep_lt (t₁ t₂ c : ℕ) (hts : t₁ ≤ t₂)
    (hsafe : (nonceStep t₁ c).2 ≤ 9999 ∨ t₁ < t₂) :
    (nonceStep t₁ c).1 < (nonceStep t₂ (nonceStep t₁ c).2).1 := by
  simp only [nonceStep] at hsafe ⊢
  set c' := if c > 9999 then 0 else c with hc'
  have h1 : c' ≤ 9999 := by rw [hc']; split <;> omega
  by_cases h2 : c' + 1 > 9999
  · rw [if_pos h2]
    have ht : t₁ < t₂ := by
      rcases hsafe with h | h
      · omega
      · exact h
    omega
  · rw [if_neg h2]
    omega

/-! ### Claim theorems: C1 and C4 -/

/-- C1: for every availableMargin ≥ 0 and currentPrice > 0,
`calculateTradeSize` computes exactly the quantity the claim describes (max
leveraged USD, risk-defined USD, the minimum of the two raised to the 10 USD
floor, zero when the raised target exceeds the leveraged maximum, otherwise
target/price rounded to 4 decimals), and in particular availableMargin = 1000,
currentPrice = 50000 yields 0.0100. -/
theorem c1_position_sizing :
    (∀ m p : ℚ, 0 ≤ m → 0 < p → calculateTradeSize m p = calculateTradeSizeSpec m p) ∧
    calculateTradeSize 1000 50000 = 1 / 100 := by
  constructor
  · intro m p _ _
    rfl
  · show (if _ > _ then (0:ℚ) else toFixed4 _) = 1 / 100
    norm_num [calculateTradeSize, toFixed4, LEVERAGE, LEVERAGE_SAFETY_FACTOR,
      RISK_PER_TRADE_PERCENT, STOP_LOSS_PERCENT, MINIMUM_TRADE_USD, round_eq]

/-- Witness for C1 at availableMargin = 1000, currentPrice = 50000. -/
theorem c1_position_sizing_witness :
    (0:ℚ) ≤ 1000 ∧ (0:ℚ) < 50000 ∧
      calculateTradeSize 1000 50000 = calculateTradeSizeSpec 1000 50000 :=
  ⟨by norm_num, by norm_num, c1_position_sizing.1 1000 50000 (by norm_num) (by norm_num)⟩

/-- C4 counterexample: with the stored counter starting at 0, a run of 10001
calls to `createNonce` all within the same millisecond (clock fixed at
1700000000000) returns the same nonce on the 1st and the 10001st call — the
bounded counter wraps after 10000 same-millisecond calls, so distinct calls can
return equal nonces (and the sequence is not non-decreasing at the wrap). -/
theorem c4_nonce_counterexample :
    (nonceRun 0 (List.replicate 10001 1700000000000)).1[0]? = some 170000000000000000 ∧
    (nonceRun 0 (List.replicate 10001 1700000000000)).1[10000]? = some 170000000000000000 := by
  have h1 : List.replicate 10001 (1700000000000:ℕ) =
      List.replicate 10000 1700000000000 ++ [1700000000000] := by
    rw [← List.replicate_succ']
  rw [h1, nonceRun_append, nonceRun_replicate 10000 0 _ (by norm_num)]
  constructor
  · simp [List.getElem?_append, List.getElem_append]
  · simp [List.getElem?_append, nonceRun, nonceStep]

/-- C4 amended: the nonces of a run are pairwise distinct and strictly
increasing provided the clock is non-decreasing and the run is wrap-safe: at
every call where the bounded counter is about to wrap past 9999 (which happens
once per 10000 calls), the millisecond clock has strictly advanced since the
preceding call.  (Without that proviso the claim fails: see the
counterexample, where 10001 calls in one millisecond repeat a nonce.) -/
theorem c4_nonce_amended (c : ℕ) (ts : List ℕ) (hmono : ts.Chain' (· ≤ ·))
    (hsafe : wrapSafe c ts = true) :
    (nonceRun c ts).1.Pairwise (· < ·) ∧ (nonceRun c ts).1.Pairwise (· ≠ ·) := by
  suffices h : (nonceRun c ts).1.Chain' (· < ·) by
    have hp : (nonceRun c ts).1.Pairwise (· < ·) := List.chain'_iff_pairwise.mp h
    exact ⟨hp, hp.imp fun hlt => Nat.ne_of_lt hlt⟩
  revert hmono hsafe
  induction ts generalizing c with
  | nil => intro _ _; simp [nonceRun]
  | cons t₁ ts' ih =>
    intro hmono hsafe
    cases ts' with
    | nil => simp [nonceRun]
    | cons t₂ ts'' =>
      simp only [wrapSafe, Bool.and_eq_true, Bool.or_eq_true, decide_eq_true_eq] at hsafe
      obtain ⟨hcond, hrest⟩ := hsafe
      rw [List.chain'_cons] at hmono
      have ihh := ih (nonceStep t₁ c).2 hmono.2 hrest
      simp only [nonceRun_cons] at ihh ⊢
      rw [List.chain'_cons]
      exact ⟨nonceStep_lt t₁ t₂ c hmono.1 hcond, ihh⟩

/-- Witness for C4's amended theorem: three calls at clock values 5, 5, 6 from
a fresh counter satisfy the hypotheses and yield strictly increasing nonces. -/
theorem c4_nonce_amended_witness :
    ([5, 5, 6] : List ℕ).Chain' (· ≤ ·) ∧ wrapSafe 0 [5, 5, 6] = true ∧
      (nonceRun 0 [5, 5, 6]).1.Pairwise (· < ·) :=
  ⟨by simp [List.chain'_cons], by decide,
    (c4_nonce_amended 0 [5, 5, 6] (by simp [List.chain'_cons]) (by decide)).1⟩

/-! ## Request signer (src/tradingBot.js lines 77-84, `signRequest`)

```js
function signRequest(endpoint, nonce, postData = '') {
    const path = endpoint.startsWith('/derivatives') ? endpoint.slice('/derivatives'.length) : endpoint;
    const message = postData + nonce + path;
    const hash = crypto.createHash('sha256').update(message).digest();
    const secretDecoded = Buffer.from(KRAKEN_API_SECRET, 'base64');
    const hmac = crypto.createHmac('sha512', secretDecoded);
    return hmac.update(hash).digest('base64');
}
```

The Node `crypto` primitives are modelled for real: UTF-8 encoding, SHA-256,
SHA-512, HMAC and base64 are implemented below over byte lists (naturals
< 256), with machine words as naturals reduced mod 2³² / 2⁶⁴. -/

/-- UTF-8 encoding of a JS string, byte values as naturals. -/
def utf8Bytes : List Char → List ℕ
  | [] => []
  | c :: rest =>
    let n := c.toNat
    (if n < 128 then [n]
     else if n < 2048 then [192 + n / 64, 128 + n % 64]
     else if n < 65536 then [224 + n / 4096, 128 + (n / 64) % 64, 128 + n % 64]
     else [240 + n / 262144, 128 + (n / 4096) % 64, 128 + (n / 64) % 64, 128 + n % 64])
      ++ utf8Bytes rest

/-- Value of one base64 alphabet character. -/
def b64Val (c : Char) : Option ℕ :=
  if 'A' ≤ c ∧ c ≤ 'Z' then some (c.toNat - 65)
  else if 'a' ≤ c ∧ c ≤ 'z' then some (c.toNat - 97 + 26)
  else if '0' ≤ c ∧ c ≤ '9' then some (c.toNat - 48 + 52)
  else if c = '+' then some 62
  else if c = '/' then some 63
  else none

/-- Base64 decoding (`Buffer.from(s, 'base64')`) of a well-formed base64
string, processing quartets of characters into byte triples, with `=` padding
ending the input. -/
def b64Decode : List Char → List ℕ
  | c1 :: c2 :: c3 :: c4 :: rest =>
    match b64Val c1, b64Val c2 with
    | some v1, some v2 =>
      if c3 = '=' then [(v1 * 4 + v2 / 16) % 256]
      else match b64Val c3 with
        | some v3 =>
          if c4 = '=' then
            let v := v1 * 4096 + v2 * 64 + v3
            [v / 1024, (v / 4) % 256]
          else match b64Val c4 with
            | some v4 =>
              let v := v1 * 262144 + v2 * 4096 + v3 * 64 + v4
              [v / 65536, (v / 256) % 256, v % 256] ++ b64Decode rest
            | none => []
        | none => []
    | _, _ => []
  | _ => []

def b64Alphabet : List Char :=
  cs "ABCDEFGHIJKLMNOPQRSTUVWXYZabcdefghijklmnopqrstuvwxyz0123456789+/"

def b64CharOf (n : ℕ) : Char := b64Alphabet.getD n 'A'

/-- Base64 encoding (`digest('base64')`) of a byte list, with `=` padding. -/
def b64Encode : List ℕ → List Char
  | b1 :: b2 :: b3 :: rest =>
    let v := b1 * 65536 + b2 * 256 + b3
    b64CharOf (v / 262144) :: b64CharOf ((v / 4096) % 64) :: b64CharOf ((v / 64) % 64) ::
      b64CharOf (v % 64) :: b64Encode rest
  | [b1, b2] =>
    let v := b1 * 65536 + b2 * 256
    [b64CharOf (v / 262144), b64CharOf ((v / 4096) % 64), b64CharOf ((v / 64) % 64), '=']
  | [b1] =>
    let v := b1 * 65536
    [b64CharOf (v / 262144), b64CharOf ((v / 4096) % 64), '=', '=']
  | [] => []

/-! ### SHA-256 -/

def w32 (n : ℕ) : ℕ := n % 4294967296

def rotr32 (x n : ℕ) : ℕ := w32 ((x >>> n) ||| (x <<< (32 - n)))

def sha2Ch (x y z : ℕ) : ℕ := (x &&& y) ^^^ ((x ^^^ 4294967295) &&& z)

def sha2Maj (x y z : ℕ) : ℕ := (x &&& y) ^^^ (x &&& z) ^^^ (y &&& z)

def bigSigma0 (x : ℕ) : ℕ := rotr32 x 2 ^^^ rotr32 x 13 ^^^ rotr32 x 22

def bigSigma1 (x : ℕ) : ℕ := rotr32 x 6 ^^^ rotr32 x 11 ^^^ rotr32 x 25

def smallSigma0 (x : ℕ) : ℕ := rotr32 x 7 ^^^ rotr32 x 18 ^^^ (x >>> 3)

def smallSigma1 (x : ℕ) : ℕ := rotr32 x 17 ^^^ rotr32 x 19 ^^^ (x >>> 10)

def K256 : List ℕ := [
  1116352408, 1899447441, 3049323471, 3921009573,
  961987163, 1508970993, 2453635748, 2870763221,
  3624381080, 310598401, 607225278, 1426881987,
  1925078388, 2162078206, 2614888103, 3248222580,
  3835390401, 4022224774, 264347078, 604807628,
  770255983, 1249150122, 1555081692, 1996064986,
  2554220882, 2821834349, 2952996808, 3210313671,
  3336571891, 3584528711, 113926993, 338241895,
  666307205, 773529912, 1294757372, 1396182291,
  1695183700, 1986661051, 2177026350, 2456956037,
  2730485921, 2820302411, 3259730800, 3345764771,
  3516065817, 3600352804, 4094571909, 275423344,
  430227734, 506948616, 659060556, 883997877,
  958139571, 1322822218, 1537002063, 1747873779,
  1955562222, 2024104815, 2227730452, 2361852424,
  2428436474, 2756734187, 3204031479, 3329325298
]

/-- Eight-word hash state shared by both SHA-2 variants. -/
structure Hash8 where
  a : ℕ
  b : ℕ
  c : ℕ
  d : ℕ
  e : ℕ
  f : ℕ
  g : ℕ
  h : ℕ

def sha256Init : Hash8 :=
  ⟨1779033703, 3144134277, 1013904242, 2773480762,
   1359893119, 2600822924, 528734635, 1541459225⟩

/-- Big-endian value of a byte (or word) list. -/
def beVal (bs : List ℕ) : ℕ := bs.foldl (fun a b => a * 256 + b) 0

/-- Big-endian bytes of `n`, width `k` bytes. -/
def beBytes (k n : ℕ) : List ℕ := (List.range k).reverse.map fun i => (n / 256 ^ i) % 256

/-- Splitting a list into chunks of `k + 1` elements (last one possibly
shorter); the successor-shaped size keeps the recursion well-founded. -/
def chunksOf (k : ℕ) : List ℕ → List (List ℕ)
  | [] => []
  | x :: xs => (x :: xs).take (k + 1) :: chunksOf k ((x :: xs).drop (k + 1))
termination_by l => l.length
decreasing_by simp; omega

/-- Message-schedule extension: append `n` more words, SHA-256 recurrence. -/
def extendW256 : ℕ → List ℕ → List ℕ
  | 0, ws => ws
  | n + 1, ws =>
    let len := ws.length
    let w := w32 (smallSigma1 (ws.getD (len - 2) 0) + ws.getD (len - 7) 0 +
      smallSigma0 (ws.getD (len - 15) 0) + ws.getD (len - 16) 0)
    extendW256 n (ws ++ [w])

def sha256Round (st : Hash8) (kw : ℕ × ℕ) : Hash8 :=
  let t1 := w32 (st.h + bigSigma1 st.e + sha2Ch st.e st.f st.g + kw.1 + kw.2)
  let t2 := w32 (bigSigma0 st.a + sha2Maj st.a st.b st.c)
  ⟨w32 (t1 + t2), st.a, st.b, st.c, w32 (st.d + t1), st.e, st.f, st.g⟩

def sha256Block (st : Hash8) (block : List ℕ) : Hash8 :=
  let ws := extendW256 48 ((chunksOf 3 block).map beVal)
  let s := (K256.zip ws).foldl sha256Round st
  ⟨w32 (st.a + s.a), w32 (st.b + s.b), w32 (st.c + s.c), w32 (st.d + s.d),
   w32 (st.e + s.e), w32 (st.f + s.f), w32 (st.g + s.g), w32 (st.h + s.h)⟩

/-- SHA-2 padding: a 0x80 byte, zeros to `target` bytes short of a multiple of
`block` bytes, then the bit length on `lenBytes` bytes big-endian. -/
def sha2Pad (block target lenBytes : ℕ) (msg : List ℕ) : List ℕ :=
  let len := msg.length
  let k := (block + target - ((len + 1) % block)) % block
  msg ++ [128] ++ List.replicate k 0 ++ beBytes lenBytes (8 * len)

def sha256 (msg : List ℕ) : List ℕ :=
  let st := (chunksOf 63 (sha2Pad 64 56 8 msg)).foldl sha256Block sha256Init
  ([st.a, st.b, st.c, st.d, st.e, st.f, st.g, st.h].map (beBytes 4)).flatten

/-! ### SHA-512 -/

def w64 (n : ℕ) : ℕ := n % 18446744073709551616

def rotr64 (x n : ℕ) : ℕ := w64 ((x >>> n) ||| (x <<< (64 - n)))

def sha2Ch64 (x y z : ℕ) : ℕ := (x &&& y) ^^^ ((x ^^^ 18446744073709551615) &&& z)

def bigSigma0x (x : ℕ) : ℕ := rotr64 x 28 ^^^ rotr64 x 34 ^^^ rotr64 x 39

def bigSigma1x (x : ℕ) : ℕ := rotr64 x 14 ^^^ rotr64 x 18 ^^^ rotr64 x 41

def smallSigma0x (x : ℕ) : ℕ := rotr64 x 1 ^^^ rotr64 x 8 ^^^ (x >>> 7)

def smallSigma1x (x : ℕ) : ℕ := rotr64 x 19 ^^^ rotr64 x 61 ^^^ (x >>> 6)

def K512 : List ℕ := [
  4794697086780616226, 8158064640168781261,
  13096744586834688815, 16840607885511220156,
  4131703408338449720, 6480981068601479193,
  10538285296894168987, 12329834152419229976,
  15566598209576043074, 1334009975649890238,
  2608012711638119052, 6128411473006802146,
  8268148722764581231, 9286055187155687089,
  11230858885718282805, 13951009754708518548,
  16472876342353939154, 17275323862435702243,
  1135362057144423861, 2597628984639134821,
  3308224258029322869, 5365058923640841347,
  6679025012923562964, 8573033837759648693,
  10970295158949994411, 12119686244451234320,
  12683024718118986047, 13788192230050041572,
  14330467153632333762, 15395433587784984357,
  489312712824947311, 1452737877330783856,
  2861767655752347644, 3322285676063803686,
  5560940570517711597, 5996557281743188959,
  7280758554555802590, 8532644243296465576,
  9350256976987008742, 10552545826968843579,
  11727347734174303076, 12113106623233404929,
  14000437183269869457, 14369950271660146224,
  15101387698204529176, 15463397548674623760,
  17586052441742319658, 1182934255886127544,
  1847814050463011016, 2177327727835720531,
  2830643537854262169, 3796741975233480872,
  4115178125766777443, 5681478168544905931,
  6601373596472566643, 7507060721942968483,
  8399075790359081724, 8693463985226723168,
  9568029438360202098, 10144078919501101548,
  10430055236837252648, 11840083180663258601,
  13761210420658862357, 14299343276471374635,
  14566680578165727644, 15097957966210449927,
  16922976911328602910, 17689382322260857208,
  500013540394364858, 748580250866718886,
  1242879168328830382, 1977374033974150939,
  2944078676154940804, 3659926193048069267,
  4368137639120453308, 4836135668995329356,
  5532061633213252278, 6448918945643986474,
  6902733635092675308, 7801388544844847127
]

def sha512Init : Hash8 :=
  ⟨7640891576956012808, 13503953896175478587,
   4354685564936845355, 11912009170470909681,
   5840696475078001361, 11170449401992604703,
   2270897969802886507, 6620516959819538809⟩

def extendW512 : ℕ → List ℕ → List ℕ
  | 0, ws => ws
  | n + 1, ws =>
    let len := ws.length
    let w := w64 (smallSigma1x (ws.getD (len - 2) 0) + ws.getD (len - 7) 0 +
      smallSigma0x (ws.getD (len - 15) 0) + ws.getD (len - 16) 0)
    extendW512 n (ws ++ [w])

def sha512Round (st : Hash8) (kw : ℕ × ℕ) : Hash8 :=
  let t1 := w64 (st.h + bigSigma1x st.e + sha2Ch64 st.e st.f st.g + kw.1 + kw.2)
  let t2 := w64 (bigSigma0x st.a + sha2Maj st.a st.b st.c)
  ⟨w64 (t1 + t2), st.a, st.b, st.c, w64 (st.d + t1), st.e, st.f, st.g⟩

def sha512Block (st : Hash8) (block : List ℕ) : Hash8 :=
  let ws := extendW512 64 ((chunksOf 7 block).map beVal)
  let s := (K512.zip ws).foldl sha512Round st
  ⟨w64 (st.a + s.a), w64 (st.b + s.b), w64 (st.c + s.c), w64 (st.d + s.d),
   w64 (st.e + s.e), w64 (st.f + s.f), w64 (st.g + s.g), w64 (st.h + s.h)⟩

def sha512 (msg : List ℕ) : List ℕ :=
  let st := (chunksOf 127 (sha2Pad 128 112 16 msg)).foldl sha512Block sha512Init
  ([st.a, st.b, st.c, st.d, st.e, st.f, st.g, st.h].map (beBytes 8)).flatten

/-- HMAC-SHA512 (`crypto.createHmac('sha512', key)`): block size 128 bytes. -/
def hmacSha512 (key msg : List ℕ) : List ℕ :=
  let k0 := if key.length > 128 then sha512 key else key
  let k1 := k0 ++ List.replicate (128 - k0.length) 0
  sha512 ((k1.map fun b => b ^^^ 92) ++ sha512 ((k1.map fun b => b ^^^ 54) ++ msg))

/-! ### The signer itself -/

/-- Hardcoded API secret from src/tradingBot.js line 48 (already public in the
repository's source). -/
def KRAKEN_API_SECRET : List Char :=
  cs "6CEQlIa0+YrlxBXWAfdvkpcCpVK3UT5Yidpg/o/36f60WWETLU1bU1jJwHK14LqFJq1T3FRj1Pdj/kk8zuhRiUJi"

/-- Path normalisation performed by `signRequest`: strip a leading
`/derivatives` before signing. -/
def normPath (endpoint : List Char) : List Char :=
  if (cs "/derivatives").isPrefixOf endpoint then endpoint.drop (cs "/derivatives").length
  else endpoint

/-- Message over which the signature is computed: `postData + nonce + path`. -/
def signMessage (endpoint nonce postData : List Char) : List Char :=
  postData ++ nonce ++ normPath endpoint

/-- Embedding of `signRequest(endpoint, nonce, postData)` (src/tradingBot.js
lines 77-84), following the source line by line. -/
def signRequest (endpoint nonce postData : List Char) : List Char :=
  let message := signMessage endpoint nonce postData
  let hash := sha256 (utf8Bytes message)
  let secretDecoded := b64Decode KRAKEN_API_SECRET
  b64Encode (hmacSha512 secretDecoded hash)

/-- Signature computation as the specification's §4.2 words it, step by step:
normalise the path by stripping the private-API prefix, concatenate
`body + nonce + normalizedPath`, hash with SHA-256, decode the secret from
base64, MAC with HMAC-SHA512 keyed by the decoded secret, base64-encode.
Written from the spec's words, to be compared with `signRequest` above. -/
def signRequestSpec (endpoint nonce body : List Char) : List Char :=
  let normalizedPath :=
    if (cs "/derivatives").isPrefixOf endpoint then endpoint.drop (cs "/derivatives").length
    else endpoint
  b64Encode (hmacSha512 (b64Decode KRAKEN_API_SECRET)
    (sha256 (utf8Bytes (body ++ nonce ++ normalizedPath))))

/-! ### Claim theorems: C5 and C8 -/

/-- C8: for all endpoint paths, nonces and bodies, `signRequest` equals the
base64-encoded HMAC-SHA512, keyed with the base64-decoded secret, of the
SHA-256 digest of `body + nonce + normalizedPath` where `normalizedPath`
strips a leading `/derivatives`; being a pure function of its arguments, it is
deterministic. -/
theorem c8_sign_request_formula :
    ∀ endpoint nonce body : List Char,
      signRequest endpoint nonce body = signRequestSpec endpoint nonce body := by
  intro endpoint nonce body
  rfl

/-- C5 counterexample: the endpoint path carrying the `/derivatives` prefix
and the same path without it are distinct paths yet produce the *same*
signature for the same nonce and body — `signRequest` strips the prefix before
signing, so this pair of simple path variants collides, contradicting the
claim. -/
theorem c5_signature_counterexample :
    signRequest (cs "/derivatives/api/v3/accounts") (cs "1616492376594") (cs "") =
        signRequest (cs "/api/v3/accounts") (cs "1616492376594") (cs "") ∧
      cs "/derivatives/api/v3/accounts" ≠ cs "/api/v3/accounts" := by
  constructor
  · have hm : signMessage (cs "/derivatives/api/v3/accounts") (cs "1616492376594") (cs "") =
        signMessage (cs "/api/v3/accounts") (cs "1616492376594") (cs "") := by decide
    simp only [signRequest, hm]
  · decide

/-- C5 amended: changing any single one of (endpointPath, nonce, body) while
holding the other two fixed changes the message fed to the SHA-256/HMAC
pipeline — hence the signature, hash collisions aside — provided, for the
path, that the change survives normalisation; path variants that differ only
by the `/derivatives` prefix are identified by the signer and produce the same
signature (the counterexample shows the unamended claim is false for exactly
those variants). -/
theorem c5_signature_amended :
    ∀ p₁ p₂ n n₂ b b₂ : List Char,
      (normPath p₁ = normPath p₂ → signRequest p₁ n b = signRequest p₂ n b) ∧
      (normPath p₁ ≠ normPath p₂ → signMessage p₁ n b ≠ signMessage p₂ n b) ∧
      (n ≠ n₂ → signMessage p₁ n b ≠ signMessage p₁ n₂ b) ∧
      (b ≠ b₂ → signMessage p₁ n b ≠ signMessage p₁ n b₂) := by
  intro p₁ p₂ n n₂ b b₂
  refine ⟨fun hp => ?_, fun hp hm => ?_, fun hn hm => ?_, fun hb hm => ?_⟩
  · simp only [signRequest, signMessage, hp]
  · simp only [signMessage] at hm
    exact hp (List.append_cancel_left hm)
  · simp only [signMessage] at hm
    exact hn (List.append_cancel_left (List.append_cancel_right hm))
  · simp only [signMessage] at hm
    exact hb (List.append_cancel_right (List.append_cancel_right hm))

/-- Witness for C5's amended theorem at concrete inputs: prefix-stripped-equal
paths share a signature, while a changed path (beyond the prefix), a changed
nonce, and a changed body each change the signed message. -/
theorem c5_signature_amended_witness :
    signRequest (cs "/derivatives/api/v3/fills") (cs "7") (cs "") =
        signRequest (cs "/api/v3/fills") (cs "7") (cs "") ∧
      signMessage (cs "/a") (cs "7") (cs "") ≠ signMessage (cs "/b") (cs "7") (cs "") ∧
      signMessage (cs "/a") (cs "7") (cs "") ≠ signMessage (cs "/a") (cs "8") (cs "") ∧
      signMessage (cs "/a") (cs "7") (cs "x") ≠ signMessage (cs "/a") (cs "7") (cs "y") :=
  ⟨(c5_signature_amended (cs "/derivatives/api/v3/fills") (cs "/api/v3/fills")
      (cs "7") (cs "7") (cs "") (cs "")).1 (by decide),
   (c5_signature_amended (cs "/a") (cs "/b") (cs "7") (cs "7") (cs "") (cs "")).2.1 (by decide),
   (c5_signature_amended (cs "/a") (cs "/a") (cs "7") (cs "8") (cs "") (cs "")).2.2.1 (by decide),
   (c5_signature_amended (cs "/a") (cs "/a") (cs "7") (cs "7") (cs "x") (cs "y")).2.2.2
     (by decide)⟩

/-! ## JSON values, printing and parsing

The Trade Memory (src/tradingBot.js lines 923-956, `readNotes`/`writeNotes`)
persists a JS object through `JSON.stringify(notes, null, 2)` and
`JSON.parse`.  JS values reachable here are modelled by the `Json` type below
(numbers as exact rationals); `JSON.stringify` with 2-space indentation and
`JSON.parse` are implemented for real over `List Char`.  Known deviations of
the model from V8, none of which any theorem below depends on: the printer
emits the exact decimal expansion of a number (V8 emits the shortest decimal
that round-trips the IEEE double), the parser accepts raw control characters
inside strings and leading zeros in numbers (V8 rejects them), and `\uXXXX`
escapes decode through `Char.ofNat` (no surrogate-pair combining). -/

inductive Json where
  | null : Json
  | bool (b : Bool) : Json
  | num (q : ℚ) : Json
  | str (s : List Char) : Json
  | arr (elems : List Json) : Json
  | obj (fields : List (List Char × Json)) : Json

/-! ### Decimal digits -/

def digitChar (d : ℕ) : Char :=
  if d = 0 then '0' else if d = 1 then '1' else if d = 2 then '2' else if d = 3 then '3'
  else if d = 4 then '4' else if d = 5 then '5' else if d = 6 then '6' else if d = 7 then '7'
  else if d = 8 then '8' else '9'

/-- Accumulator-style decimal printer; `fuel ≥ n` makes it total. -/
def natPrintAux : ℕ → ℕ → List Char → List Char
  | 0, _, acc => acc
  | fuel + 1, n, acc =>
    if n = 0 then acc else natPrintAux fuel (n / 10) (digitChar (n % 10) :: acc)

/-- Decimal digits of `n`, empty for 0. -/
def printNatCore (n : ℕ) : List Char := natPrintAux n n []

/-- Decimal rendering of `n`, `"0"` for 0. -/
def printNat (n : ℕ) : List Char := if n = 0 then ['0'] else printNatCore n

/-- Left-pad a digit string with zeros to width `k`. -/
def pad0 (k : ℕ) (ds : List Char) : List Char := List.replicate (k - ds.length) '0' ++ ds

/-- Numeric value of a decimal digit string. -/
def digitsVal (ds : List Char) : ℕ := ds.foldl (fun a c => a * 10 + (c.toNat - 48)) 0

/-- Maximal leading run of decimal digits, and the remainder. -/
def takeDigits : List Char → List Char × List Char
  | [] => ([], [])
  | c :: r =>
    if c.isDigit then
      let p := takeDigits r
      (c :: p.1, p.2)
    else ([], c :: r)

/-! ### Number printing -/

/-- Smallest exponent `k` with `d ∣ 10^k`, when one exists (i.e. when `d` has
no prime factors besides 2 and 5); searching up to `d` suffices. -/
def decExp (d : ℕ) : Option ℕ := (List.range (d + 1)).find? fun k => 10 ^ k % d = 0

/-- Finite-decimal representability of a rational; every IEEE double (hence
every JS number) has this property. -/
def numOk (q : ℚ) : Bool := (decExp q.den).isSome

/-- Decimal rendering of a rational with finite decimal expansion (JSON number
grammar); falls back to `"0"` on rationals no JS number can denote. -/
def printQ (q : ℚ) : List Char :=
  match decExp q.den with
  | none => ['0']
  | some k =>
    let m := q.num.natAbs * (10 ^ k / q.den)
    let core :=
      if k = 0 then printNat m
      else printNat (m / 10 ^ k) ++ '.' :: pad0 k (printNatCore (m % 10 ^ k))
    if q < 0 then '-' :: core else core

/-! ### String escaping -/

def hexDigitChar (d : ℕ) : Char :=
  if d < 10 then digitChar d
  else if d = 10 then 'a' else if d = 11 then 'b' else if d = 12 then 'c'
  else if d = 13 then 'd' else if d = 14 then 'e' else 'f'

/-- Escaping of one character as inside a JSON string literal, after
`JSON.stringify`: named escapes for the common controls, `\u00XX` for the
rest, everything else literal. -/
def escChar (c : Char) : List Char :=
  if c = '"' then ['\\', '"']
  else if c = '\\' then ['\\', '\\']
  else if c = '\n' then ['\\', 'n']
  else if c = '\r' then ['\\', 'r']
  else if c = '\t' then ['\\', 't']
  else if c = '\x08' then ['\\', 'b']
  else if c = '\x0c' then ['\\', 'f']
  else if c.toNat < 32 then
    ['\\', 'u', '0', '0', hexDigitChar (c.toNat / 16), hexDigitChar (c.toNat % 16)]
  else [c]

def escStr : List Char → List Char
  | [] => []
  | c :: r => escChar c ++ escStr r

def printStr (s : List Char) : List Char := '"' :: escStr s ++ ['"']

/-! ### The printer: `JSON.stringify(v, null, 2)` -/

/-- Indentation at nesting level `k`: `2k` spaces. -/
def pad (k : ℕ) : List Char := List.replicate (2 * k) ' '

mutual

def printVal (ind : ℕ) : Json → List Char
  | .null => cs "null"
  | .bool true => cs "true"
  | .bool false => cs "false"
  | .num q => printQ q
  | .str s => printStr s
  | .arr [] => cs "[]"
  | .arr (v :: vs) =>
    '[' :: '\n' :: pad (ind + 1) ++ printItems (ind + 1) v vs ++ '\n' :: pad ind ++ [']']
  | .obj [] => ['{', '}']
  | .obj (f :: fs) =>
    '{' :: '\n' :: pad (ind + 1) ++ printFields (ind + 1) f fs ++ '\n' :: pad ind ++ ['}']
termination_by j => sizeOf j

def printItems (ind : ℕ) : Json → List Json → List Char
  | v, [] => printVal ind v
  | v, w :: vs => printVal ind v ++ ',' :: '\n' :: pad ind ++ printItems ind w vs
termination_by v l => 1 + sizeOf v + sizeOf l

def printFields (ind : ℕ) : List Char × Json → List (List Char × Json) → List Char
  | (k, v), [] => printStr k ++ ':' :: ' ' :: printVal ind v
  | (k, v), f :: fs =>
    printStr k ++ ':' :: ' ' :: printVal ind v ++ ',' :: '\n' :: pad ind ++ printFields ind f fs
termination_by f l => 1 + sizeOf f + sizeOf l

end

/-- `JSON.stringify(v, null, 2)`. -/
def jsonStringify (v : Json) : List Char := printVal 0 v

/- Whether every number inside the value is a finite decimal (true of every
value a JS program can build, since JS numbers are doubles). -/
mutual

def numsOkV : Json → Bool
  | .null => true
  | .bool _ => true
  | .str _ => true
  | .num q => numOk q
  | .arr vs => numsOkL vs
  | .obj fs => numsOkF fs

def numsOkL : List Json → Bool
  | [] => true
  | v :: vs => numsOkV v && numsOkL vs

def numsOkF : List (List Char × Json) → Bool
  | [] => true
  | f :: fs => numsOkV f.2 && numsOkF fs

end

/-! ### The parser: `JSON.parse` -/

def isWsB (c : Char) : Bool := c == ' ' || c == '\n' || c == '\t' || c == '\r'

def skipWs : List Char → List Char
  | [] => []
  | c :: r => if isWsB c then skipWs r else c :: r

def hexVal (c : Char) : Option ℕ :=
  if c.isDigit then some (c.toNat - 48)
  else if 'a' ≤ c ∧ c ≤ 'f' then some (c.toNat - 87)
  else if 'A' ≤ c ∧ c ≤ 'F' then some (c.toNat - 55)
  else none

def escDecode (c : Char) : Option Char :=
  if c = '"' then some '"'
  else if c = '\\' then some '\\'
  else if c = '/' then some '/'
  else if c = 'n' then some '\n'
  else if c = 't' then some '\t'
  else if c = 'r' then some '\r'
  else if c = 'b' then some '\x08'
  else if c = 'f' then some '\x0c'
  else none

/-- Body of a JSON string literal (after the opening quote): returns the
decoded characters and the input after the closing quote. -/
def parseStrBody : List Char → Option (List Char × List Char)
  | [] => none
  | c :: r =>
    if c = '"' then some ([], r)
    else if c = '\\' then
      match r with
      | [] => none
      | e :: r2 =>
        if e = 'u' then
          match r2 with
          | h1 :: h2 :: h3 :: h4 :: r3 =>
            match hexVal h1, hexVal h2, hexVal h3, hexVal h4 with
            | some a, some b, some c2, some d =>
              (parseStrBody r3).map fun p =>
                (Char.ofNat (a * 4096 + b * 256 + c2 * 16 + d) :: p.1, p.2)
            | _, _, _, _ => none
          | _ => none
        else
          match escDecode e with
          | some d => (parseStrBody r2).map fun p => (d :: p.1, p.2)
          | none => none
    else (parseStrBody r).map fun p => (c :: p.1, p.2)

/-- Optional exponent part of a JSON number, scaling the value parsed so far. -/
def parseExpTail (v : ℚ) : List Char → Option (ℚ × List Char)
  | [] => some (v, [])
  | c :: r1 =>
    if c = 'e' ∨ c = 'E' then
      let sr : ℤ × List Char :=
        match r1 with
        | s :: r2 => if s = '+' then (1, r2) else if s = '-' then (-1, r2) else (1, r1)
        | [] => (1, r1)
      let p := takeDigits sr.2
      if p.1 = [] then none
      else some (v * (10 : ℚ) ^ (sr.1 * (digitsVal p.1 : ℤ)), p.2)
    else some (v, c :: r1)

/-- Unsigned JSON number: integer digits, optional fraction, optional
exponent. -/
def parseNumPos (s : List Char) : Option (ℚ × List Char) :=
  let p := takeDigits s
  if p.1 = [] then none
  else if p.2.head? = some '.' then
    let f := takeDigits p.2.tail
    if f.1 = [] then none
    else parseExpTail ((digitsVal p.1 : ℚ) + (digitsVal f.1 : ℚ) / 10 ^ f.1.length) f.2
  else parseExpTail (digitsVal p.1 : ℚ) p.2

def parseNum (s : List Char) : Option (Json × List Char) :=
  if s.head? = some '-' then (parseNumPos s.tail).map fun p => (Json.num (-p.1), p.2)
  else (parseNumPos s).map fun p => (Json.num p.1, p.2)

mutual

def parseVal : ℕ → List Char → Option (Json × List Char)
  | 0, _ => none
  | fuel + 1, s =>
    match skipWs s with
    | [] => none
    | c :: r =>
      if c = '{' then
        match skipWs r with
        | [] => none
        | c2 :: r2 =>
          if c2 = '}' then some (.obj [], r2)
          else (parseFieldsAux fuel (c2 :: r2)).map fun p => (.obj p.1, p.2)
      else if c = '[' then
        match skipWs r with
        | [] => none
        | c2 :: r2 =>
          if c2 = ']' then some (.arr [], r2)
          else (parseItemsAux fuel (c2 :: r2)).map fun p => (.arr p.1, p.2)
      else if c = '"' then (parseStrBody r).map fun p => (.str p.1, p.2)
      else if c = 't' then
        if r.take 3 = cs "rue" then some (.bool true, r.drop 3) else none
      else if c = 'f' then
        if r.take 4 = cs "alse" then some (.bool false, r.drop 4) else none
      else if c = 'n' then
        if r.take 3 = cs "ull" then some (.null, r.drop 3) else none
      else parseNum (c :: r)

def parseItemsAux : ℕ → List Char → Option (List Json × List Char)
  | 0, _ => none
  | fuel + 1, s =>
    match parseVal fuel s with
    | none => none
    | some (v, r) =>
      match skipWs r with
      | [] => none
      | c :: r2 =>
        if c = ',' then (parseItemsAux fuel r2).map fun p => (v :: p.1, p.2)
        else if c = ']' then some ([v], r2)
        else none

def parseFieldsAux : ℕ → List Char → Option (List (List Char × Json) × List Char)
  | 0, _ => none
  | fuel + 1, s =>
    match skipWs s with
    | [] => none
    | c :: r =>
      if c = '"' then
        match parseStrBody r with
        | none => none
        | some (k, r1) =>
          match skipWs r1 with
          | [] => none
          | c2 :: r2 =>
            if c2 = ':' then
              match parseVal fuel r2 with
              | none => none
              | some (v, r3) =>
                match skipWs r3 with
                | [] => none
                | c3 :: r4 =>
                  if c3 = ',' then (parseFieldsAux fuel r4).map fun p => ((k, v) :: p.1, p.2)
                  else if c3 = '}' then some ([(k, v)], r4)
                  else none
            else none
      else none

end

/-- `JSON.parse`: the whole input must be one JSON value, up to surrounding
whitespace. -/
def jsonParse (s : List Char) : Option Json :=
  match parseVal (s.length + 1) s with
  | some (v, rest) => if (skipWs rest).isEmpty then some v else none
  | none => none

/-! ### Round-trip: digits -/

theorem digitChar_isDigit : ∀ d < 10, (digitChar d).isDigit = true := by decide

theorem digitChar_toNat : ∀ d < 10, (digitChar d).toNat = 48 + d := by decide

/-- Accumulator-recursion unfolding: with enough fuel, `natPrintAux` is
`printNatCore` followed by the accumulator. -/
theorem natPrintAux_eq (n : ℕ) : ∀ fuel acc, n ≤ fuel →
    natPrintAux fuel n acc = printNatCore n ++ acc := by
  induction n using Nat.strong_induction_on with
  | _ n ih =>
    intro fuel acc hfuel
    match fuel with
    | 0 =>
      interval_cases n
      simp [natPrintAux, printNatCore]
    | fuel + 1 =>
      by_cases hn : n = 0
      · subst hn; simp [natPrintAux, printNatCore]
      · have hlt : n / 10 < n := Nat.div_lt_self (Nat.pos_of_ne_zero hn) (by norm_num)
        have h1 : natPrintAux (fuel + 1) n acc
            = natPrintAux fuel (n / 10) (digitChar (n % 10) :: acc) := by
          simp [natPrintAux, hn]
        have h2 : printNatCore n = printNatCore (n / 10) ++ [digitChar (n % 10)] := by
          have hn1 : ∃ m, n = m + 1 := ⟨n - 1, by omega⟩
          obtain ⟨m, rfl⟩ := hn1
          show natPrintAux (m + 1) (m + 1) [] = _
          rw [show natPrintAux (m + 1) (m + 1) []
              = natPrintAux m ((m + 1) / 10) [digitChar ((m + 1) % 10)] by
            simp [natPrintAux, hn]]
          rw [ih ((m + 1) / 10) hlt m [digitChar ((m + 1) % 10)] (by omega)]
        rw [h1, h2, ih (n / 10) hlt fuel (digitChar (n % 10) :: acc) (by omega)]
        simp

theorem printNatCore_succ {n : ℕ} (hn : n ≠ 0) :
    printNatCore n = printNatCore (n / 10) ++ [digitChar (n % 10)] := by
  have hlt : n / 10 < n := Nat.div_lt_self (Nat.pos_of_ne_zero hn) (by norm_num)
  obtain ⟨m, rfl⟩ : ∃ m, n = m + 1 := ⟨n - 1, by omega⟩
  show natPrintAux (m + 1) (m + 1) [] = _
  rw [show natPrintAux (m + 1) (m + 1) []
      = natPrintAux m ((m + 1) / 10) [digitChar ((m + 1) % 10)] by simp [natPrintAux, hn]]
  rw [natPrintAux_eq ((m + 1) / 10) m [digitChar ((m + 1) % 10)] (by omega)]

theorem printNatCore_zero : printNatCore 0 = [] := rfl

theorem printNatCore_digits (n : ℕ) : ∀ c ∈ printNatCore n, c.isDigit = true := by
  induction n using Nat.strong_induction_on with
  | _ n ih =>
    by_cases hn : n = 0
    · subst hn; simp [printNatCore_zero]
    · rw [printNatCore_succ hn]
      intro c hc
      rcases List.mem_append.mp hc with h | h
      · exact ih (n / 10) (Nat.div_lt_self (Nat.pos_of_ne_zero hn) (by norm_num)) c h
      · simp at h
        subst h
        exact digitChar_isDigit _ (Nat.mod_lt _ (by norm_num))

theorem printNatCore_ne_nil {n : ℕ} (hn : n ≠ 0) : printNatCore n ≠ [] := by
  rw [printNatCore_succ hn]
  simp

theorem digitsVal_append_singleton (ds : List Char) (c : Char) :
    digitsVal (ds ++ [c]) = 10 * digitsVal ds + (c.toNat - 48) := by
  simp [digitsVal, List.foldl_append]
  ring

theorem digitsVal_printNatCore (n : ℕ) : digitsVal (printNatCore n) = n := by
  induction n using Nat.strong_induction_on with
  | _ n ih =>
    by_cases hn : n = 0
    · subst hn; simp [printNatCore_zero, digitsVal]
    · rw [printNatCore_succ hn, digitsVal_append_singleton,
        ih (n / 10) (Nat.div_lt_self (Nat.pos_of_ne_zero hn) (by norm_num)),
        digitChar_toNat _ (Nat.mod_lt _ (by norm_num))]
      omega

theorem printNatCore_length_le : ∀ k n, n < 10 ^ k → (printNatCore n).length ≤ k := by
  intro k
  induction k with
  | zero =>
    intro n hn
    interval_cases n
    simp [printNatCore_zero]
  | succ k ih =>
    intro n hn
    by_cases hzero : n = 0
    · subst hzero; simp [printNatCore_zero]
    · rw [printNatCore_succ hzero]
      have : n / 10 < 10 ^ k := by
        rw [Nat.div_lt_iff_lt_mul (by norm_num)]
        calc n < 10 ^ (k + 1) := hn
        _ = 10 ^ k * 10 := by ring
      simp [ih (n / 10) this]

theorem digitsVal_replicate_zero (m : ℕ) (ds : List Char) :
    digitsVal (List.replicate m '0' ++ ds) = digitsVal ds := by
  induction m with
  | zero => simp
  | succ m ih => simpa [digitsVal, List.replicate_succ] using ih

theorem printNat_digits (n : ℕ) : ∀ c ∈ printNat n, c.isDigit = true := by
  unfold printNat
  split
  · intro c hc; simp at hc; subst hc; decide
  · exact printNatCore_digits n

theorem digitsVal_printNat (n : ℕ) : digitsVal (printNat n) = n := by
  unfold printNat
  split
  · simp [digitsVal]; omega
  · exact digitsVal_printNatCore n

theorem printNat_head (n : ℕ) : ∃ d ds, printNat n = d :: ds ∧ d.isDigit = true := by
  unfold printNat
  split
  · exact ⟨'0', [], rfl, by decide⟩
  · rename_i hn
    obtain ⟨d, ds, hds⟩ := List.exists_cons_of_ne_nil (printNatCore_ne_nil hn)
    exact ⟨d, ds, hds, printNatCore_digits n d (by rw [hds]; exact List.mem_cons_self _ _)⟩

/-- Head test used in `takeDigits` boundary reasoning. -/
def noDigitHead : List Char → Bool
  | [] => true
  | c :: _ => !c.isDigit

/-- Boundary guard telling the number parser where to stop: the remaining
input begins with no digit, no decimal point and no exponent marker. -/
def numStop : List Char → Bool
  | [] => true
  | c :: _ => !c.isDigit && !(c == '.') && !(c == 'e') && !(c == 'E')

theorem noDigitHead_of_numStop : ∀ {l : List Char}, numStop l = true → noDigitHead l = true := by
  intro l h
  cases l with
  | nil => rfl
  | cons c r => simp [numStop] at h; simp [noDigitHead, h.1]

theorem takeDigits_append {ds : List Char} (rest : List Char)
    (hds : ∀ c ∈ ds, c.isDigit = true) (hrest : noDigitHead rest = true) :
    takeDigits (ds ++ rest) = (ds, rest) := by
  induction ds with
  | nil =>
    cases rest with
    | nil => rfl
    | cons c r =>
      simp [noDigitHead] at hrest
      simp [takeDigits, hrest]
  | cons d ds ih =>
    have hd : d.isDigit = true := hds d (List.mem_cons_self _ _)
    simp only [List.cons_append, takeDigits, hd, if_true]
    rw [List.append_eq, ih fun c hc => hds c (List.mem_cons_of_mem _ hc)]

/-! ### Round-trip: character classes and whitespace -/

theorem ne_of_digit {c : Char} (x : Char) (h : c.isDigit = true) (hx : x.isDigit = false) :
    c ≠ x := fun he => by rw [he, hx] at h; cases h

theorem isWsB_false_of_digit {c : Char} (h : c.isDigit = true) : isWsB c = false := by
  simp only [isWsB, Bool.or_eq_false_iff, beq_eq_false_iff_ne]
  refine ⟨⟨⟨?_, ?_⟩, ?_⟩, ?_⟩ <;> intro he <;> rw [he] at h <;> cases h

theorem skipWs_cons_of_ws {c : Char} (h : isWsB c = true) (r : List Char) :
    skipWs (c :: r) = skipWs r := by simp [skipWs, h]

theorem skipWs_cons_of_not {c : Char} (h : isWsB c = false) (r : List Char) :
    skipWs (c :: r) = c :: r := by simp [skipWs, h]

theorem skipWs_replicate_space (n : ℕ) (x : List Char) :
    skipWs (List.replicate n ' ' ++ x) = skipWs x := by
  induction n with
  | zero => simp
  | succ n ih => simpa [List.replicate_succ, skipWs] using ih

theorem skipWs_pad (k : ℕ) (x : List Char) : skipWs (pad k ++ x) = skipWs x :=
  skipWs_replicate_space _ x

theorem skipWs_skipWs (s : List Char) : skipWs (skipWs s) = skipWs s := by
  induction s with
  | nil => rfl
  | cons c r ih =>
    by_cases h : isWsB c = true
    · simp [skipWs, h, ih]
    · simp at h
      simp [skipWs, h]

/-! ### Round-trip: strings -/

theorem hexVal_hexDigitChar : ∀ d < 16, hexVal (hexDigitChar d) = some d := by decide

theorem parseStrBody_roundtrip (s rest : List Char) :
    parseStrBody (escStr s ++ '"' :: rest) = some (s, rest) := by
  induction s with
  | nil =>
    simp only [escStr, List.nil_append]
    rw [parseStrBody.eq_def]
    simp
  | cons c cs ih =>
    show parseStrBody ((escChar c ++ escStr cs) ++ '"' :: rest) = _
    rw [List.append_assoc]
    unfold escChar
    split_ifs with h1 h2 h3 h4 h5 h6 h7 h8
    · subst h1; rw [parseStrBody.eq_def]; simp [escDecode, ih]
    · subst h2; rw [parseStrBody.eq_def]; simp [escDecode, ih]
    · subst h3; rw [parseStrBody.eq_def]; simp [escDecode, ih]
    · subst h4; rw [parseStrBody.eq_def]; simp [escDecode, ih]
    · subst h5; rw [parseStrBody.eq_def]; simp [escDecode, ih]
    · subst h6; rw [parseStrBody.eq_def]; simp [escDecode, ih]
    · subst h7; rw [parseStrBody.eq_def]; simp [escDecode, ih]
    · have hd16 : c.toNat / 16 < 16 := by omega
      have hm16 : c.toNat % 16 < 16 := by omega
      have e1 : hexVal (hexDigitChar (c.toNat / 16)) = some (c.toNat / 16) :=
        hexVal_hexDigitChar _ hd16
      have e2 : hexVal (hexDigitChar (c.toNat % 16)) = some (c.toNat % 16) :=
        hexVal_hexDigitChar _ hm16
      have hsum : 4096 * 0 + 256 * 0 + 16 * (c.toNat / 16) + c.toNat % 16 = c.toNat := by omega
      rw [parseStrBody.eq_def]
      simp only [List.cons_append, List.nil_append]
      simp [e1, e2, ih, show hexVal '0' = some 0 from rfl]
      rw [show c.toNat / 16 * 16 + c.toNat % 16 = c.toNat from by omega, Char.ofNat_toNat]
    · rw [parseStrBody.eq_def]; simp [h1, h2, ih]

/-! ### Round-trip: numbers -/

theorem decExp_dvd {d k : ℕ} (h : decExp d = some k) : d ∣ 10 ^ k := by
  have := List.find?_some h
  simp at this
  exact Nat.dvd_of_mod_eq_zero this

theorem parseExpTail_stop (v : ℚ) {rest : List Char} (h : numStop rest = true) :
    parseExpTail v rest = some (v, rest) := by
  cases rest with
  | nil => rfl
  | cons c r =>
    simp only [numStop, Bool.and_eq_true, Bool.not_eq_true',
      beq_eq_false_iff_ne, ne_eq] at h
    simp only [parseExpTail]
    rw [if_neg (by tauto)]

/-- Value identity behind the decimal printer: the printed mantissa over
`10^k` is `|q|`. -/
theorem printQ_mantissa (q : ℚ) {k : ℕ} (hk : decExp q.den = some k) :
    ((q.num.natAbs * (10 ^ k / q.den) : ℕ) : ℚ) / (10 : ℚ) ^ k = |q| := by
  have hdvd : q.den ∣ 10 ^ k := decExp_dvd hk
  have hden : (q.den : ℚ) ≠ 0 := Nat.cast_ne_zero.mpr q.den_nz
  have h10 : ((10 : ℚ)) ^ k ≠ 0 := by positivity
  have ht : ((10 ^ k / q.den : ℕ) : ℚ) = (10 : ℚ) ^ k / (q.den : ℚ) := by
    rw [Nat.cast_div hdvd hden]
    push_cast
    ring
  have hnatabs : ((q.num.natAbs : ℕ) : ℚ) = |(q.num : ℚ)| := by
    rw [Int.cast_natAbs, Int.cast_abs]
  have habs : |q| = |(q.num : ℚ)| / (q.den : ℚ) := by
    have hd := abs_div (q.num : ℚ) (q.den : ℚ)
    rw [Rat.num_div_den] at hd
    rw [hd, abs_of_nonneg (show (0 : ℚ) ≤ (q.den : ℚ) by positivity)]
  rw [habs]
  push_cast [ht, hnatabs]
  field_simp
  ring

/-- Assembling integer and fractional digit values. -/
theorem div_mod_assemble (m k : ℕ) :
    ((m / 10 ^ k : ℕ) : ℚ) + ((m % 10 ^ k : ℕ) : ℚ) / (10 : ℚ) ^ k = (m : ℚ) / 10 ^ k := by
  have hdm := Nat.div_add_mod m (10 ^ k)
  have h10 : ((10 : ℚ)) ^ k ≠ 0 := by positivity
  have hcast : ((10 ^ k * (m / 10 ^ k) + m % 10 ^ k : ℕ) : ℚ) = (m : ℚ) := by
    exact_mod_cast congrArg (Nat.cast : ℕ → ℚ) hdm
  push_cast at hcast
  field_simp
  linarith

theorem numStop_head_ne {c : Char} {r : List Char} (h : numStop (c :: r) = true) :
    c.isDigit = false ∧ c ≠ '.' ∧ c ≠ 'e' ∧ c ≠ 'E' := by
  simp only [numStop, Bool.and_eq_true, Bool.not_eq_true', beq_eq_false_iff_ne, ne_eq] at h
  exact ⟨h.1.1.1, h.1.1.2, h.1.2, h.2⟩

theorem head?_ne_dot_of_numStop {rest : List Char} (h : numStop rest = true) :
    rest.head? ≠ some '.' := by
  cases rest with
  | nil => simp
  | cons c r =>
    simp only [List.head?_cons, ne_eq, Option.some.injEq]
    exact (numStop_head_ne h).2.1

theorem parseNumPos_core (q : ℚ) {k : ℕ} (hk : decExp q.den = some k) (rest : List Char)
    (hstop : numStop rest = true) :
    parseNumPos ((if k = 0 then printNat (q.num.natAbs * (10 ^ k / q.den))
        else printNat (q.num.natAbs * (10 ^ k / q.den) / 10 ^ k) ++
          '.' :: pad0 k (printNatCore (q.num.natAbs * (10 ^ k / q.den) % 10 ^ k))) ++ rest) =
      some (|q|, rest) := by
  have hmant := printQ_mantissa q hk
  set m := q.num.natAbs * (10 ^ k / q.den) with hm
  by_cases hk0 : k = 0
  · subst hk0
    rw [if_pos rfl]
    simp only [parseNumPos]
    rw [takeDigits_append rest (printNat_digits m) (noDigitHead_of_numStop hstop)]
    dsimp only
    have hne : ¬ printNat m = [] := by
      obtain ⟨d, ds, hd, _⟩ := printNat_head m
      simp [hd]
    rw [if_neg hne, if_neg (head?_ne_dot_of_numStop hstop), parseExpTail_stop _ hstop,
      digitsVal_printNat]
    simp only [pow_zero, div_one] at hmant
    rw [hmant]
  · rw [if_neg hk0, List.append_assoc]
    simp only [parseNumPos, List.cons_append]
    rw [takeDigits_append ('.' :: (pad0 k (printNatCore (m % 10 ^ k)) ++ rest))
      (printNat_digits _) (by simp [noDigitHead])]
    dsimp only
    have hne : ¬ printNat (m / 10 ^ k) = [] := by
      obtain ⟨d, ds, hd, _⟩ := printNat_head (m / 10 ^ k)
      simp [hd]
    rw [if_neg hne]
    rw [if_pos (by simp)]
    simp only [List.tail_cons]
    have hfrac_digits : ∀ c ∈ pad0 k (printNatCore (m % 10 ^ k)), c.isDigit = true := by
      intro c hc
      rcases List.mem_append.mp hc with h | h
      · rw [List.eq_of_mem_replicate h]; decide
      · exact printNatCore_digits _ c h
    rw [takeDigits_append rest hfrac_digits (noDigitHead_of_numStop hstop)]
    dsimp only
    have hlen : (pad0 k (printNatCore (m % 10 ^ k))).length = k := by
      have : (printNatCore (m % 10 ^ k)).length ≤ k :=
        printNatCore_length_le k _ (Nat.mod_lt _ (by positivity))
      simp only [pad0, List.length_append, List.length_replicate]
      omega
    have hne2 : ¬ pad0 k (printNatCore (m % 10 ^ k)) = [] := by
      intro h
      rw [h] at hlen
      simp at hlen
      omega
    rw [if_neg hne2, parseExpTail_stop _ hstop, digitsVal_printNat, hlen,
      show digitsVal (pad0 k (printNatCore (m % 10 ^ k))) = m % 10 ^ k by
        simp [pad0, digitsVal_replicate_zero, digitsVal_printNatCore],
      div_mod_assemble, hmant]

/-- Parsing back a printed number, given any non-number continuation. -/
theorem parseNum_printQ (q : ℚ) (hok : numOk q = true) (rest : List Char)
    (hstop : numStop rest = true) :
    parseNum (printQ q ++ rest) = some (Json.num q, rest) := by
  obtain ⟨k, hk⟩ : ∃ k, decExp q.den = some k := by
    simpa [numOk, Option.isSome_iff_exists] using hok
  have hcore := parseNumPos_core q hk rest hstop
  set core := (if k = 0 then printNat (q.num.natAbs * (10 ^ k / q.den))
      else printNat (q.num.natAbs * (10 ^ k / q.den) / 10 ^ k) ++
        '.' :: pad0 k (printNatCore (q.num.natAbs * (10 ^ k / q.den) % 10 ^ k))) with hcoredef
  have hprint : printQ q = if q < 0 then '-' :: core else core := by
    rw [printQ, hk, hcoredef]
  have hcorehead : ∃ d ds, core = d :: ds ∧ d.isDigit = true := by
    rw [hcoredef]
    by_cases hk0 : k = 0
    · rw [if_pos hk0]
      exact printNat_head _
    · rw [if_neg hk0]
      obtain ⟨d, ds, hd, hdig⟩ := printNat_head (q.num.natAbs * (10 ^ k / q.den) / 10 ^ k)
      exact ⟨d, ds ++ '.' :: pad0 k (printNatCore (q.num.natAbs * (10 ^ k / q.den) % 10 ^ k)),
        by rw [hd]; simp, hdig⟩
  rw [hprint]
  by_cases hneg : q < 0
  · rw [if_pos hneg]
    simp only [List.cons_append, parseNum, List.head?_cons, List.tail_cons,
      Option.some.injEq, if_pos rfl]
    rw [hcore]
    simp only [Option.map_some']
    rw [abs_of_neg hneg]
    simp
  · rw [if_neg hneg]
    obtain ⟨d, ds, hd, hdig⟩ := hcorehead
    have hhead : ((core ++ rest).head? = some '-') = False := by
      rw [hd]
      simp only [List.cons_append, List.head?_cons, Option.some.injEq, eq_iff_iff,
        iff_false]
      exact ne_of_digit '-' hdig (by decide)
    simp only [parseNum, hhead, if_false]
    rw [hcore]
    simp only [Option.map_some']
    rw [abs_of_nonneg (le_of_not_lt hneg)]

/-! ### Round-trip: head shapes and fuel bounds -/

theorem printQ_head (q : ℚ) :
    ∃ c r, printQ q = c :: r ∧ (c.isDigit = true ∨ c = '-') := by
  unfold printQ
  cases hdk : decExp q.den with
  | none => exact ⟨'0', [], rfl, Or.inl (by decide)⟩
  | some k =>
    dsimp only
    by_cases hneg : q < 0
    · rw [if_pos hneg]
      exact ⟨'-', _, rfl, Or.inr rfl⟩
    · rw [if_neg hneg]
      by_cases hk0 : k = 0
      · rw [if_pos hk0]
        obtain ⟨d, ds, hd, hdig⟩ := printNat_head _
        exact ⟨d, ds, hd, Or.inl hdig⟩
      · rw [if_neg hk0]
        obtain ⟨d, ds, hd, hdig⟩ := printNat_head (q.num.natAbs * (10 ^ k / q.den) / 10 ^ k)
        refine ⟨d, ds ++ '.' :: pad0 k (printNatCore (q.num.natAbs * (10 ^ k / q.den) % 10 ^ k)),
          ?_, Or.inl hdig⟩
        rw [hd]
        simp

/-- Every printed value starts with a character that is not whitespace and not
a closing bracket, so the skip-whitespace scan before a value stops exactly at
its first character. -/
theorem printVal_head (ind : ℕ) (v : Json) :
    ∃ c r, printVal ind v = c :: r ∧ isWsB c = false ∧ c ≠ ']' ∧ c ≠ '}' := by
  cases v with
  | null =>
    exact ⟨'n', cs "ull", by simp [printVal]; try decide, by decide, by decide, by decide⟩
  | bool b =>
    cases b with
    | true =>
      exact ⟨'t', cs "rue", by simp [printVal]; try decide, by decide, by decide, by decide⟩
    | false =>
      exact ⟨'f', cs "alse", by simp [printVal]; try decide, by decide, by decide, by decide⟩
  | num q =>
    obtain ⟨c, r, hpr, hcls⟩ := printQ_head q
    refine ⟨c, r, by simp [printVal]; exact hpr, ?_, ?_, ?_⟩
    · rcases hcls with h | h
      · exact isWsB_false_of_digit h
      · subst h; decide
    · rcases hcls with h | h
      · exact ne_of_digit _ h (by decide)
      · subst h; decide
    · rcases hcls with h | h
      · exact ne_of_digit _ h (by decide)
      · subst h; decide
  | str s =>
    refine ⟨'"', escStr s ++ ['"'], ?_, by decide, by decide, by decide⟩
    simp [printVal, printStr]
  | arr es =>
    cases es with
    | nil =>
      exact ⟨'[', [']'], by simp [printVal]; try decide, by decide, by decide, by decide⟩
    | cons v vs =>
      refine ⟨'[', '\n' :: pad (ind + 1) ++ printItems (ind + 1) v vs ++ '\n' :: pad ind ++ [']'],
        ?_, by decide, by decide, by decide⟩
      simp [printVal]
  | obj fs =>
    cases fs with
    | nil =>
      exact ⟨'{', ['}'], by simp [printVal]; try decide, by decide, by decide, by decide⟩
    | cons f fs =>
      refine ⟨'{', '\n' :: pad (ind + 1) ++ printFields (ind + 1) f fs ++ '\n' :: pad ind ++ ['}'],
        ?_, by decide, by decide, by decide⟩
      simp [printVal]

/- Fuel needed by the parser to read back a printed value: one unit per
`parseVal` / `parseItemsAux` / `parseFieldsAux` invocation along the spine. -/
mutual

def pfuelV : Json → ℕ
  | .null => 1
  | .bool _ => 1
  | .num _ => 1
  | .str _ => 1
  | .arr vs => 1 + pfuelL vs
  | .obj fs => 1 + pfuelF fs
termination_by j => sizeOf j

def pfuelL : List Json → ℕ
  | [] => 1
  | v :: vs => 1 + max (pfuelV v) (pfuelL vs)
termination_by l => sizeOf l

def pfuelF : List (List Char × Json) → ℕ
  | [] => 1
  | (_, v) :: fs => 1 + max (pfuelV v) (pfuelF fs)
termination_by l => sizeOf l

end

theorem pfuelV_pos (v : Json) : 1 ≤ pfuelV v := by
  cases v <;> simp [pfuelV]

theorem printVal_ne_nil (ind : ℕ) (v : Json) : printVal ind v ≠ [] := by
  obtain ⟨c, r, h, -⟩ := printVal_head ind v
  simp [h]

/-- Fuel bound: the parser never needs more fuel than the printed text is
long. -/
theorem pfuel_bound (n : ℕ) :
    (∀ v : Json, ∀ ind, sizeOf v ≤ n → pfuelV v ≤ (printVal ind v).length) ∧
    (∀ (v : Json) (l : List Json), ∀ ind, sizeOf v + sizeOf l ≤ n →
      pfuelL (v :: l) ≤ (printItems ind v l).length + 1) ∧
    (∀ (f : List Char × Json) (l : List (List Char × Json)), ∀ ind, sizeOf f + sizeOf l ≤ n →
      pfuelF (f :: l) ≤ (printFields ind f l).length + 1) := by
  induction n using Nat.strong_induction_on with
  | _ n ih =>
    refine ⟨?_, ?_, ?_⟩
    · intro v ind hsz
      cases v with
      | null => simp [pfuelV, printVal]; try decide
      | bool b => cases b <;> (simp [pfuelV, printVal]; try decide)
      | num q =>
        obtain ⟨c, r, h, -⟩ := printVal_head ind (.num q)
        simp [pfuelV, h]
      | str s =>
        obtain ⟨c, r, h, -⟩ := printVal_head ind (.str s)
        simp only [pfuelV]
        simp [h]
      | arr es =>
        cases es with
        | nil => simp [pfuelV, pfuelL, printVal]; try decide
        | cons v vs =>
          have hszs : sizeOf v + sizeOf vs ≤ n - 2 := by
            have h1 : sizeOf (Json.arr (v :: vs)) = 1 + (1 + sizeOf v + sizeOf vs) := by
              simp [List.cons.sizeOf_spec]
            omega
          have hn2 : n - 2 < n := by
            have : 1 ≤ sizeOf v := by cases v <;> simp_arith
            omega
          have hitems := (ih (n - 2) hn2).2.1 v vs (ind + 1) hszs
          simp only [pfuelV]
          simp [printVal, List.length_append]
          omega
      | obj fs =>
        cases fs with
        | nil => simp [pfuelV, pfuelF, printVal]; try decide
        | cons f fs =>
          have hszs : sizeOf f + sizeOf fs ≤ n - 2 := by
            have h1 : sizeOf (Json.obj (f :: fs)) = 1 + (1 + sizeOf f + sizeOf fs) := by
              simp [List.cons.sizeOf_spec]
            omega
          have hn2 : n - 2 < n := by
            have : 1 ≤ sizeOf f := by
              obtain ⟨a, b⟩ := f
              simp_arith
            omega
          have hfields := (ih (n - 2) hn2).2.2 f fs (ind + 1) hszs
          simp only [pfuelV]
          simp [printVal, List.length_append]
          omega
    · intro v l ind hsz
      have h1 : 1 ≤ sizeOf v := by cases v <;> simp_arith
      have h2 : 1 ≤ (printVal ind v).length := by
        obtain ⟨c, r, h, -⟩ := printVal_head ind v
        simp [h]
      cases l with
      | nil =>
        have hnil : sizeOf ([] : List Json) = 1 := rfl
        have hn : n - 1 < n := by omega
        have hv := ((ih (n - 1) hn).1) v ind (by omega)
        simp only [pfuelL]
        simp [printItems]
        omega
      | cons w ls =>
        have hwls : sizeOf (w :: ls) = 1 + sizeOf w + sizeOf ls := by
          simp [List.cons.sizeOf_spec]
        have hsz2 : sizeOf w + sizeOf ls ≤ n - 1 := by omega
        have hn : n - 1 < n := by omega
        have hv := ((ih (n - 1) hn).1) v ind (by omega)
        have htail := ((ih (n - 1) hn).2.1) w ls ind hsz2
        simp only [pfuelL] at htail ⊢
        simp [printItems, List.length_append]
        omega
    · intro f l ind hsz
      obtain ⟨k, v⟩ := f
      have h1 : 1 ≤ sizeOf v := by cases v <;> simp_arith
      have hkv : sizeOf ((k, v) : List Char × Json) = 1 + sizeOf k + sizeOf v := by simp
      cases l with
      | nil =>
        have hnil : sizeOf ([] : List (List Char × Json)) = 1 := rfl
        have hn : n - 1 < n := by omega
        have hv := ((ih (n - 1) hn).1) v ind (by omega)
        simp only [pfuelF]
        simp [printFields, List.length_append, printStr]
        omega
      | cons g ls =>
        have hgls : sizeOf (g :: ls) = 1 + sizeOf g + sizeOf ls := by
          simp [List.cons.sizeOf_spec]
        have hsz2 : sizeOf g + sizeOf ls ≤ n - 1 := by omega
        have hn : n - 1 < n := by omega
        have hv := ((ih (n - 1) hn).1) v ind (by omega)
        have htail := ((ih (n - 1) hn).2.2) g ls ind hsz2
        simp only [pfuelF] at htail ⊢
        simp [printFields, List.length_append, printStr]
        omega

/-! ### Round-trip: parser/printer agreement -/

theorem numStop_cons (c : Char) (x : List Char) :
    numStop (c :: x) = (!c.isDigit && !(c == '.') && !(c == 'e') && !(c == 'E')) := rfl

theorem parseVal_skipWs (fuel : ℕ) (s : List Char) :
    parseVal fuel s = parseVal fuel (skipWs s) := by
  cases fuel with
  | zero => rfl
  | succ g => simp only [parseVal, skipWs_skipWs]

theorem parseItemsAux_ws (fuel j : ℕ) (x : List Char) :
    parseItemsAux fuel ('\n' :: pad j ++ x) = parseItemsAux fuel x := by
  cases fuel with
  | zero => rfl
  | succ g =>
    simp only [parseItemsAux, List.cons_append]
    rw [parseVal_skipWs g, skipWs_cons_of_ws (show isWsB '\n' = true from by decide),
      skipWs_pad, ← parseVal_skipWs g]

theorem parseFieldsAux_ws (fuel j : ℕ) (x : List Char) :
    parseFieldsAux fuel ('\n' :: pad j ++ x) = parseFieldsAux fuel x := by
  cases fuel with
  | zero => rfl
  | succ g =>
    simp only [parseFieldsAux, List.cons_append]
    rw [skipWs_cons_of_ws (show isWsB '\n' = true from by decide), skipWs_pad]

theorem printItems_decomp (ind : ℕ) (v : Json) (l : List Json) :
    ∃ T, printItems ind v l = printVal ind v ++ T := by
  cases l with
  | nil => exact ⟨[], by simp [printItems]⟩
  | cons w ls => exact ⟨',' :: '\n' :: pad ind ++ printItems ind w ls, by simp [printItems]⟩

theorem printFields_head (ind : ℕ) (k : List Char) (v : Json) (l : List (List Char × Json)) :
    ∃ X, printFields ind (k, v) l = '"' :: X := by
  cases l with
  | nil => exact ⟨escStr k ++ '"' :: ':' :: ' ' :: printVal ind v, by simp [printFields, printStr]⟩
  | cons f fs =>
    refine ⟨escStr k ++ '"' :: ':' :: ' ' :: (printVal ind v ++ ',' :: '\n' :: pad ind ++
      printFields ind f fs), ?_⟩
    simp [printFields, printStr]

/-- Completeness of the parser against the printer: with enough fuel, printed
text followed by a suitable continuation parses back to the printed value.
All three parser levels are proved together by strong induction on fuel. -/
theorem parse_complete (fuel : ℕ) :
    (∀ (v : Json) (ind : ℕ) (rest : List Char), pfuelV v ≤ fuel → numsOkV v = true →
      numStop rest = true →
      parseVal fuel (printVal ind v ++ rest) = some (v, rest)) ∧
    (∀ (v : Json) (l : List Json) (ind j : ℕ) (rest : List Char),
      pfuelL (v :: l) ≤ fuel → numsOkL (v :: l) = true →
      parseItemsAux fuel (printItems ind v l ++ '\n' :: pad j ++ ']' :: rest) =
        some (v :: l, rest)) ∧
    (∀ (k : List Char) (v : Json) (l : List (List Char × Json)) (ind j : ℕ)
      (rest : List Char),
      pfuelF ((k, v) :: l) ≤ fuel → numsOkF ((k, v) :: l) = true →
      parseFieldsAux fuel (printFields ind (k, v) l ++ '\n' :: pad j ++ '}' :: rest) =
        some ((k, v) :: l, rest)) := by
  induction fuel using Nat.strong_induction_on with
  | _ fuel ih =>
    refine ⟨?_, ?_, ?_⟩
    · -- parseVal
      intro v ind rest hfu hok hstop
      obtain ⟨g, rfl⟩ : ∃ g, fuel = g + 1 := ⟨fuel - 1, by have := pfuelV_pos v; omega⟩
      cases v with
      | null =>
        have hp : printVal ind .null = ['n', 'u', 'l', 'l'] := by simp [printVal]; decide
        rw [hp]
        simp only [List.cons_append, List.nil_append, parseVal]
        rw [skipWs_cons_of_not (by decide)]
        simp
        decide
      | bool b =>
        cases b with
        | true =>
          have hp : printVal ind (.bool true) = ['t', 'r', 'u', 'e'] := by
            simp [printVal]; decide
          rw [hp]
          simp only [List.cons_append, List.nil_append, parseVal]
          rw [skipWs_cons_of_not (by decide)]
          simp
          decide
        | false =>
          have hp : printVal ind (.bool false) = ['f', 'a', 'l', 's', 'e'] := by
            simp [printVal]; decide
          rw [hp]
          simp only [List.cons_append, List.nil_append, parseVal]
          rw [skipWs_cons_of_not (by decide)]
          simp
          decide
      | num q =>
        have hokq : numOk q = true := by simpa [numsOkV] using hok
        obtain ⟨c, r0, hpr, hcls⟩ := printQ_head q
        have hws : isWsB c = false := by
          rcases hcls with h | h
          · exact isWsB_false_of_digit h
          · subst h; decide
        have hnc : ∀ x : Char, x.isDigit = false → x ≠ '-' → (c = x) = False := by
          intro x hx hxm
          refine eq_false ?_
          rcases hcls with h | h
          · exact ne_of_digit _ h hx
          · subst h
            exact fun he => hxm he.symm
        have hp : printVal ind (.num q) = printQ q := by simp [printVal]
        rw [hp, hpr, List.cons_append]
        simp only [parseVal]
        rw [skipWs_cons_of_not hws]
        simp only [hnc '{' (by decide) (by decide), hnc '[' (by decide) (by decide),
          hnc '"' (by decide) (by decide), hnc 't' (by decide) (by decide),
          hnc 'f' (by decide) (by decide), hnc 'n' (by decide) (by decide), if_false]
        rw [← List.cons_append, ← hpr]
        exact parseNum_printQ q hokq rest hstop
      | str s =>
        have hp : printVal ind (.str s) = '"' :: (escStr s ++ ['"']) := by
          simp [printVal, printStr]
        rw [hp, List.cons_append]
        simp only [parseVal]
        rw [skipWs_cons_of_not (by decide)]
        simp only [show (('"' : Char) = '{') = False from by decide,
          show (('"' : Char) = '[') = False from by decide, if_false, if_pos rfl]
        rw [List.append_assoc]
        simp only [List.cons_append, List.nil_append]
        rw [parseStrBody_roundtrip]
        rfl
      | arr es =>
        cases es with
        | nil =>
          have hp : printVal ind (.arr []) = ['[', ']'] := by simp [printVal]; decide
          rw [hp]
          simp only [List.cons_append, List.nil_append, parseVal]
          rw [skipWs_cons_of_not (by decide)]
          simp only [show (('[' : Char) = '{') = False from by decide, if_false, if_pos rfl]
          rw [skipWs_cons_of_not (by decide)]
          simp
        | cons v vs =>
          have hfu' : pfuelL (v :: vs) ≤ g := by
            have : pfuelV (.arr (v :: vs)) = 1 + pfuelL (v :: vs) := by simp [pfuelV]
            omega
          have hok' : numsOkL (v :: vs) = true := by simpa [numsOkV] using hok
          have hitems := (ih g (by omega)).2.1 v vs (ind + 1) ind rest hfu' hok'
          have hp : printVal ind (.arr (v :: vs)) =
              '[' :: '\n' :: pad (ind + 1) ++ printItems (ind + 1) v vs ++
                '\n' :: pad ind ++ [']'] := by simp [printVal]
          rw [hp]
          simp only [List.cons_append, List.append_assoc, List.singleton_append,
            List.nil_append]
          obtain ⟨T, hT⟩ := printItems_decomp (ind + 1) v vs
          obtain ⟨c0, r0, hpr0, hws0, hne1, hne2⟩ := printVal_head (ind + 1) v
          have hAeq : printItems (ind + 1) v vs ++ '\n' :: (pad ind ++ ']' :: rest) =
              c0 :: (r0 ++ (T ++ '\n' :: (pad ind ++ ']' :: rest))) := by
            rw [hT, hpr0]
            simp
          have hskipA : skipWs ('\n' :: (pad (ind + 1) ++
              (printItems (ind + 1) v vs ++ '\n' :: (pad ind ++ ']' :: rest)))) =
              printItems (ind + 1) v vs ++ '\n' :: (pad ind ++ ']' :: rest) := by
            rw [skipWs_cons_of_ws (show isWsB '\n' = true from by decide), skipWs_pad, hAeq,
              skipWs_cons_of_not hws0]
          simp only [parseVal]
          rw [skipWs_cons_of_not (show isWsB '[' = false from by decide)]
          simp only []
          rw [hskipA, hAeq]
          simp only []
          rw [if_neg hne1, ← hAeq]
          simp only [List.cons_append, List.append_assoc] at hitems
          rw [hitems]
          rfl
      | obj fs =>
        cases fs with
        | nil =>
          have hp : printVal ind (.obj []) = ['{', '}'] := by simp [printVal]
          rw [hp]
          simp only [List.cons_append, List.nil_append, parseVal]
          rw [skipWs_cons_of_not (by decide)]
          simp only [if_pos rfl]
          rw [skipWs_cons_of_not (by decide)]
          simp
        | cons f fs =>
          obtain ⟨k, v⟩ := f
          have hfu' : pfuelF ((k, v) :: fs) ≤ g := by
            have : pfuelV (.obj ((k, v) :: fs)) = 1 + pfuelF ((k, v) :: fs) := by
              simp [pfuelV]
            omega
          have hok' : numsOkF ((k, v) :: fs) = true := by simpa [numsOkV] using hok
          have hfields := (ih g (by omega)).2.2 k v fs (ind + 1) ind rest hfu' hok'
          have hp : printVal ind (.obj ((k, v) :: fs)) =
              '{' :: '\n' :: pad (ind + 1) ++ printFields (ind + 1) (k, v) fs ++
                '\n' :: pad ind ++ ['}'] := by simp [printVal]
          rw [hp]
          simp only [List.cons_append, List.append_assoc, List.singleton_append,
            List.nil_append]
          obtain ⟨X, hX⟩ := printFields_head (ind + 1) k v fs
          have hAeq : printFields (ind + 1) (k, v) fs ++ '\n' :: (pad ind ++ '}' :: rest) =
              '"' :: (X ++ '\n' :: (pad ind ++ '}' :: rest)) := by
            rw [hX]
            simp
          have hskipA : skipWs ('\n' :: (pad (ind + 1) ++
              (printFields (ind + 1) (k, v) fs ++ '\n' :: (pad ind ++ '}' :: rest)))) =
              printFields (ind + 1) (k, v) fs ++ '\n' :: (pad ind ++ '}' :: rest) := by
            rw [skipWs_cons_of_ws (show isWsB '\n' = true from by decide), skipWs_pad, hAeq,
              skipWs_cons_of_not (show isWsB '"' = false from by decide)]
          simp only [parseVal]
          rw [skipWs_cons_of_not (show isWsB '{' = false from by decide)]
          simp only []
          rw [hskipA, hAeq]
          simp only []
          rw [if_neg (show ¬('"' : Char) = '}' from by decide), ← hAeq]
          simp only [List.cons_append, List.append_assoc] at hfields
          rw [hfields]
          rfl
    · -- parseItemsAux
      intro v l ind j rest hfu hok
      obtain ⟨g, rfl⟩ : ∃ g, fuel = g + 1 := by
        refine ⟨fuel - 1, ?_⟩
        have : 1 ≤ pfuelL (v :: l) := by simp [pfuelL]
        omega
      have hokv : numsOkV v = true := by
        simp only [numsOkL, Bool.and_eq_true] at hok
        exact hok.1
      cases l with
      | nil =>
        have hfuv : pfuelV v ≤ g := by
          have : pfuelL [v] = 1 + max (pfuelV v) 1 := by simp [pfuelL]
          omega
        have hval := (ih g (by omega)).1 v ind ('\n' :: pad j ++ ']' :: rest) hfuv hokv
          (by simp only [List.cons_append]; rw [numStop_cons]; decide)
        have hpi : printItems ind v [] = printVal ind v := by simp [printItems]
        have hskipR : skipWs ('\n' :: (pad j ++ ']' :: rest)) = ']' :: rest := by
          rw [skipWs_cons_of_ws (show isWsB '\n' = true from by decide), skipWs_pad,
            skipWs_cons_of_not (show isWsB ']' = false from by decide)]
        rw [hpi]
        simp only [parseItemsAux]
        simp only [List.cons_append, List.append_assoc] at hval ⊢
        rw [hval]
        simp only []
        rw [hskipR]
        simp only []
        rw [if_neg (show ¬(']' : Char) = ',' from by decide)]
        rw [if_pos trivial]
      | cons w ls =>
        have hfuv : pfuelV v ≤ g := by
          have : pfuelL (v :: w :: ls) = 1 + max (pfuelV v) (pfuelL (w :: ls)) := by
            simp [pfuelL]
          omega
        have hfut : pfuelL (w :: ls) ≤ g := by
          have : pfuelL (v :: w :: ls) = 1 + max (pfuelV v) (pfuelL (w :: ls)) := by
            simp [pfuelL]
          omega
        have hokt : numsOkL (w :: ls) = true := by
          simp only [numsOkL, Bool.and_eq_true] at hok ⊢
          exact hok.2
        have hpi : printItems ind v (w :: ls) =
            printVal ind v ++ ',' :: '\n' :: pad ind ++ printItems ind w ls := by
          simp [printItems]
        have hval := (ih g (by omega)).1 v ind
          (',' :: '\n' :: pad ind ++ printItems ind w ls ++ '\n' :: pad j ++ ']' :: rest)
          hfuv hokv (by simp only [List.cons_append]; rw [numStop_cons]; decide)
        have htail := (ih g (by omega)).2.1 w ls ind j rest hfut hokt
        have hwsx := parseItemsAux_ws g ind
          (printItems ind w ls ++ '\n' :: pad j ++ ']' :: rest)
        rw [hpi]
        simp only [parseItemsAux]
        simp only [List.append_assoc, List.cons_append] at hval hwsx htail ⊢
        rw [hval]
        simp only []
        rw [skipWs_cons_of_not (show isWsB ',' = false from by decide)]
        simp only []
        rw [if_pos trivial]
        rw [hwsx, htail]
        rfl
    · -- parseFieldsAux
      intro k v l ind j rest hfu hok
      obtain ⟨g, rfl⟩ : ∃ g, fuel = g + 1 := by
        refine ⟨fuel - 1, ?_⟩
        have : 1 ≤ pfuelF ((k, v) :: l) := by simp [pfuelF]
        omega
      have hokv : numsOkV v = true := by
        simp only [numsOkF, Bool.and_eq_true] at hok
        exact hok.1
      have hfuv : pfuelV v ≤ g := by
        have : pfuelF ((k, v) :: l) = 1 + max (pfuelV v) (pfuelF l) := by simp [pfuelF]
        omega
      obtain ⟨c0, r0, hpr0, hws0, -, -⟩ := printVal_head ind v
      cases l with
      | nil =>
        have hpf : printFields ind (k, v) [] = printStr k ++ ':' :: ' ' :: printVal ind v := by
          simp [printFields]
        have hval := (ih g (by omega)).1 v ind ('\n' :: pad j ++ '}' :: rest) hfuv hokv
          (by simp only [List.cons_append]; rw [numStop_cons]; decide)
        have hvs : parseVal g (' ' :: (printVal ind v ++ ('\n' :: (pad j ++ '}' :: rest)))) =
            some (v, '\n' :: (pad j ++ '}' :: rest)) := by
          rw [parseVal_skipWs g, skipWs_cons_of_ws (show isWsB ' ' = true from by decide),
            hpr0, List.cons_append, skipWs_cons_of_not hws0, ← List.cons_append, ← hpr0]
          simp only [List.append_assoc, List.cons_append] at hval
          exact hval
        have hskipR : skipWs ('\n' :: (pad j ++ '}' :: rest)) = '}' :: rest := by
          rw [skipWs_cons_of_ws (show isWsB '\n' = true from by decide), skipWs_pad,
            skipWs_cons_of_not (show isWsB '}' = false from by decide)]
        rw [hpf]
        simp only [parseFieldsAux, printStr]
        simp only [List.append_assoc, List.cons_append, List.singleton_append,
          List.nil_append]
        rw [skipWs_cons_of_not (show isWsB '"' = false from by decide)]
        simp only []
        rw [if_pos trivial]
        rw [parseStrBody_roundtrip]
        simp only []
        rw [skipWs_cons_of_not (show isWsB ':' = false from by decide)]
        simp only []
        rw [if_pos trivial]
        rw [hvs]
        simp only []
        rw [hskipR]
        simp only []
        rw [if_neg (show ¬('}' : Char) = ',' from by decide)]
        rw [if_pos trivial]
      | cons f fs =>
        obtain ⟨k2, v2⟩ := f
        have hfut : pfuelF ((k2, v2) :: fs) ≤ g := by
          have : pfuelF ((k, v) :: (k2, v2) :: fs) =
              1 + max (pfuelV v) (pfuelF ((k2, v2) :: fs)) := by simp [pfuelF]
          omega
        have hokt : numsOkF ((k2, v2) :: fs) = true := by
          simp only [numsOkF, Bool.and_eq_true] at hok ⊢
          exact hok.2
        have htail := (ih g (by omega)).2.2 k2 v2 fs ind j rest hfut hokt
        have hwsx := parseFieldsAux_ws g ind
          (printFields ind (k2, v2) fs ++ '\n' :: pad j ++ '}' :: rest)
        have hpf : printFields ind (k, v) ((k2, v2) :: fs) =
            printStr k ++ ':' :: ' ' :: printVal ind v ++ ',' :: '\n' :: pad ind ++
              printFields ind (k2, v2) fs := by
          simp [printFields]
        have hval := (ih g (by omega)).1 v ind
          (',' :: '\n' :: pad ind ++ printFields ind (k2, v2) fs ++ '\n' :: pad j ++
            '}' :: rest) hfuv hokv
          (by simp only [List.cons_append]; rw [numStop_cons]; decide)
        have hvs : parseVal g (' ' :: (printVal ind v ++ (',' :: '\n' :: (pad ind ++
            (printFields ind (k2, v2) fs ++ ('\n' :: (pad j ++ '}' :: rest))))))) =
            some (v, ',' :: '\n' :: (pad ind ++ (printFields ind (k2, v2) fs ++
              ('\n' :: (pad j ++ '}' :: rest))))) := by
          rw [parseVal_skipWs g, skipWs_cons_of_ws (show isWsB ' ' = true from by decide),
            hpr0, List.cons_append, skipWs_cons_of_not hws0, ← List.cons_append, ← hpr0]
          simp only [List.append_assoc, List.cons_append] at hval
          exact hval
        have hskipC : skipWs (',' :: '\n' :: (pad ind ++ (printFields ind (k2, v2) fs ++
            ('\n' :: (pad j ++ '}' :: rest))))) = ',' :: '\n' :: (pad ind ++
            (printFields ind (k2, v2) fs ++ ('\n' :: (pad j ++ '}' :: rest)))) :=
          skipWs_cons_of_not (show isWsB ',' = false from by decide) _
        rw [hpf]
        simp only [parseFieldsAux, printStr]
        simp only [List.append_assoc, List.cons_append, List.singleton_append,
          List.nil_append]
        rw [skipWs_cons_of_not (show isWsB '"' = false from by decide)]
        simp only []
        rw [if_pos trivial]
        rw [parseStrBody_roundtrip]
        simp only []
        rw [skipWs_cons_of_not (show isWsB ':' = false from by decide)]
        simp only []
        rw [if_pos trivial]
        rw [hvs]
        simp only []
        rw [hskipC]
        simp only []
        rw [if_pos trivial]
        simp only [List.append_assoc, List.cons_append] at hwsx htail
        rw [hwsx, htail]
        rfl

/-- Top-level round-trip: `JSON.parse(JSON.stringify(v, null, 2))` restores `v`
whenever every number inside `v` is a finite decimal (true of every value a JS
program can build from doubles). -/
theorem stringify_parse (v : Json) (h : numsOkV v = true) :
    jsonParse (jsonStringify v) = some v := by
  have hb : pfuelV v ≤ (printVal 0 v).length := (pfuel_bound (sizeOf v)).1 v 0 le_rfl
  have hmain := (parse_complete ((printVal 0 v).length + 1)).1 v 0 []
    (by omega) h (by decide)
  rw [List.append_nil] at hmain
  unfold jsonParse jsonStringify
  rw [hmain]
  rfl

/-! ## Trade Memory (src/tradingBot.js lines 923-956) -/

/-- Default memory returned by `readNotes` when the notes file is missing or
unparseable (src/tradingBot.js lines 932-941). -/
def defaultNotes : Json :=
  .obj [(cs "lastTrade", .obj [
      (cs "action", .str (cs "none")),
      (cs "result", .str (cs "N/A")),
      (cs "reason", .str (cs "No trades yet.")),
      (cs "entryPrice", .num 0),
      (cs "exitPrice", .num 0)]),
    (cs "generalObservations", .str (cs "Bot initialized."))]

/-- Embedding of `readNotes()` (src/tradingBot.js lines 923-943).  The notes
file is modelled as `Option (List Char)`: `none` when the file is absent or
unreadable (`fs.access`/`fs.readFile` throw), `some text` when it holds
`text`.  `JSON.parse` failure lands in the same `catch`, yielding the default
object. -/
def readNotes (file : Option (List Char)) : Json :=
  match file with
  | none => defaultNotes
  | some text =>
    match jsonParse text with
    | some v => v
    | none => defaultNotes

/-- Embedding of `writeNotes(notes)` (src/tradingBot.js lines 949-956):
returns the new state of the notes file,
`JSON.stringify(notes, null, 2)`.  (A write error is caught and logged in the
source, leaving the file as it was; the model covers the successful write,
which is what the round-trip claim is about.) -/
def writeNotes (notes : Json) : Option (List Char) := some (jsonStringify notes)

/-! ## Action handlers (src/tradingBot.js SECTION 4, lines 213-308) -/

/-- The fields of the strategic plan object from the AI that the handlers read:
`plan.action`, `plan.orderType`, `plan.reason`, `plan.price`. -/
structure Plan where
  action : List Char
  orderType : List Char
  reason : List Char
  price : Option ℚ

/-- The fields of the account/market context that the handlers read:
`context.hasOpenPosition`, `context.availableMargin`,
`context.indicators.lastPrice`, `context.previousNotes`. -/
structure Ctx where
  hasOpenPosition : Bool
  availableMargin : ℚ
  lastPrice : ℚ
  previousNotes : Json

/-- An order object handed to `executeOrder`: `orderType`, `symbol`, `side`,
`size`, and the optional `limitPrice`/`stopPrice` fields (`none` models the
JS `null` / absent field). -/
structure OrderReq where
  orderType : List Char
  symbol : List Char
  side : List Char
  size : ℚ
  limitPrice : Option ℚ
  stopPrice : Option ℚ
  deriving DecidableEq

/-- JS object spread `{...o, k: v}` for an object `o`: the key keeps its
position if already present (with the new value), else is appended; spreading
a non-object primitive yields just `{k: v}`. -/
def setField (o : Json) (k : List Char) (v : Json) : Json :=
  match o with
  | .obj fs =>
    if fs.any fun f => f.1 = k then
      .obj (fs.map fun f => if f.1 = k then (k, v) else f)
    else .obj (fs ++ [(k, v)])
  | _ => .obj [(k, v)]

set_option linter.unusedVariables false in
/-- Embedding of `handleNewPosition(plan, context)` (src/tradingBot.js lines
213-282).  The two `executeOrder` network calls are modelled by their observed
acknowledgement statuses: `entryStatus` is `some s` when the entry order's
response arrived with `sendStatus.status = s`, `none` when the response was
falsy; `stopStatus` is the same for the protective stop order.  The result is
the list of orders submitted to `executeOrder` in order, paired with the notes
object the handler returns. -/
def handleNewPosition (plan : Plan) (context : Ctx)
    (entryStatus stopStatus : Option (List Char)) : List OrderReq × Json :=
  if context.hasOpenPosition then ([], context.previousNotes)
  else
    let currentPrice := context.lastPrice
    let tradeSizeBTC := calculateTradeSize context.availableMargin currentPrice
    if tradeSizeBTC ≤ 0 then
      ([], setField context.previousNotes (cs "generalObservations")
        (.str (cs "Trade size was zero, aborted entry.")))
    else
      let entryOrder : OrderReq :=
        { orderType := plan.orderType
          symbol := FUTURES_SYMBOL
          side := if plan.action = cs "ENTER_LONG" then cs "buy" else cs "sell"
          size := tradeSizeBTC
          limitPrice := if plan.orderType = cs "lmt" then plan.price else none
          stopPrice := none }
      if entryStatus = some (cs "placed") then
        let stopLossPrice := if plan.action = cs "ENTER_LONG"
          then currentPrice * (1 - STOP_LOSS_PERCENT / 100)
          else currentPrice * (1 + STOP_LOSS_PERCENT / 100)
        let roundedStopPrice : ℤ := round stopLossPrice
        let roundedLimitPrice : ℤ := if plan.action = cs "ENTER_LONG"
          then roundedStopPrice - 1 else roundedStopPrice + 1
        let stopLossOrder : OrderReq :=
          { orderType := cs "stp"
            symbol := FUTURES_SYMBOL
            side := if plan.action = cs "ENTER_LONG" then cs "sell" else cs "buy"
            size := tradeSizeBTC
            limitPrice := some (roundedLimitPrice : ℚ)
            stopPrice := some (roundedStopPrice : ℚ) }
        let newNotes : Json := .obj [
          (cs "lastTrade", .obj [
            (cs "action", .str plan.action),
            (cs "result", .str (cs "Open")),
            (cs "reason", .str plan.reason),
            (cs "entryPrice", .num currentPrice),
            (cs "exitPrice", .num 0)]),
          (cs "generalObservations",
            .str (cs "Successfully entered a " ++ plan.action ++ cs " position."))]
        ([entryOrder, stopLossOrder], newNotes)
      else
        ([entryOrder], setField context.previousNotes (cs "generalObservations")
          (.str (cs "Attempted to " ++ plan.action ++ cs " but the order failed.")))

/-- Embedding of `handlePositionExit(plan, context)` (src/tradingBot.js lines
289-308).  The body past the open-position guard is only
`console.log("!!! EXIT LOGIC NOT YET IMPLEMENTED !!!")`, a TODO comment block,
and a notes update: no order is ever built or submitted. -/
def handlePositionExit (_plan : Plan) (context : Ctx) : List OrderReq × Json :=
  if !context.hasOpenPosition then ([], context.previousNotes)
  else
    ([], setField context.previousNotes (cs "generalObservations")
      (.str (cs "AI recommended an exit, but the logic is not yet implemented.")))

/-- Shared concrete evaluation: margin 1000 USD at price 50000 sizes to 0.01
BTC. -/
theorem tradeSize_sample : calculateTradeSize 1000 50000 = 1 / 100 := by
  show (if _ > _ then (0:ℚ) else toFixed4 _) = 1 / 100
  norm_num [calculateTradeSize, toFixed4, LEVERAGE, LEVERAGE_SAFETY_FACTOR,
    RISK_PER_TRADE_PERCENT, STOP_LOSS_PERCENT, MINIMUM_TRADE_USD, round_eq]

/-! ### Claim theorems: C2, C3, C6, C7, C9, C10 -/

/-- C6: whenever the context reports an open position, `handleNewPosition`
submits no order and returns the previous Trade Memory notes unchanged,
whatever the plan and whatever the order acknowledgements would have been. -/
theorem c6_entry_refused_when_position_open (plan : Plan) (context : Ctx)
    (es ss : Option (List Char)) (h : context.hasOpenPosition = true) :
    handleNewPosition plan context es ss = ([], context.previousNotes) := by
  simp [handleNewPosition, h]

theorem c6_entry_refused_when_position_open_witness :
    (Ctx.mk true 1000 50000 defaultNotes).hasOpenPosition = true ∧
    handleNewPosition ⟨cs "ENTER_LONG", cs "mkt", cs "momentum", none⟩
      (Ctx.mk true 1000 50000 defaultNotes) (some (cs "placed")) (some (cs "placed")) =
      ([], defaultNotes) :=
  ⟨rfl, c6_entry_refused_when_position_open
    ⟨cs "ENTER_LONG", cs "mkt", cs "momentum", none⟩
    (Ctx.mk true 1000 50000 defaultNotes) (some (cs "placed")) (some (cs "placed")) rfl⟩

/-- C7: on an acknowledged (`'placed'`) entry for an `ENTER_LONG` (resp.
`ENTER_SHORT`) plan with positive computed size, exactly two orders go out —
the entry and one stop — and the stop has the entry's size, side `'sell'`
(resp. `'buy'`), stop price `round(price * (1 - STOP_LOSS_PERCENT/100))`
(resp. `round(price * (1 + STOP_LOSS_PERCENT/100))`), and limit price one
tick beyond the trigger in the adverse direction. -/
theorem c7_protective_stop (plan : Plan) (context : Ctx) (ss : Option (List Char))
    (hnopos : context.hasOpenPosition = false)
    (hsize : 0 < calculateTradeSize context.availableMargin context.lastPrice)
    (haction : plan.action = cs "ENTER_LONG" ∨ plan.action = cs "ENTER_SHORT") :
    ∃ entry stop : OrderReq,
      (handleNewPosition plan context (some (cs "placed")) ss).1 = [entry, stop] ∧
      stop.orderType = cs "stp" ∧
      stop.symbol = FUTURES_SYMBOL ∧
      entry.size = calculateTradeSize context.availableMargin context.lastPrice ∧
      stop.size = entry.size ∧
      (plan.action = cs "ENTER_LONG" →
        stop.side = cs "sell" ∧
        stop.stopPrice =
          some ((round (context.lastPrice * (1 - STOP_LOSS_PERCENT / 100)) : ℤ) : ℚ) ∧
        stop.limitPrice =
          some (((round (context.lastPrice * (1 - STOP_LOSS_PERCENT / 100)) : ℤ) - 1 : ℤ) : ℚ)) ∧
      (plan.action = cs "ENTER_SHORT" →
        stop.side = cs "buy" ∧
        stop.stopPrice =
          some ((round (context.lastPrice * (1 + STOP_LOSS_PERCENT / 100)) : ℤ) : ℚ) ∧
        stop.limitPrice =
          some (((round (context.lastPrice * (1 + STOP_LOSS_PERCENT / 100)) : ℤ) + 1 : ℤ) : ℚ)) := by
  have hne : ¬ calculateTradeSize context.availableMargin context.lastPrice ≤ 0 :=
    not_le.mpr hsize
  rcases haction with hl | hs
  · have hne2 : plan.action ≠ cs "ENTER_SHORT" := by rw [hl]; decide
    have hres : (handleNewPosition plan context (some (cs "placed")) ss).1 =
        [⟨plan.orderType, FUTURES_SYMBOL, cs "buy",
            calculateTradeSize context.availableMargin context.lastPrice,
            if plan.orderType = cs "lmt" then plan.price else none, none⟩,
          ⟨cs "stp", FUTURES_SYMBOL, cs "sell",
            calculateTradeSize context.availableMargin context.lastPrice,
            some (((round (context.lastPrice * (1 - STOP_LOSS_PERCENT / 100)) : ℤ) - 1 : ℤ) : ℚ),
            some ((round (context.lastPrice * (1 - STOP_LOSS_PERCENT / 100)) : ℤ) : ℚ)⟩] := by
      simp [handleNewPosition, hnopos, hne, hl]
    exact ⟨_, _, hres, rfl, rfl, rfl, rfl, fun _ => ⟨rfl, rfl, rfl⟩, fun hc => absurd hc hne2⟩
  · have hne2 : plan.action ≠ cs "ENTER_LONG" := by rw [hs]; decide
    have hres : (handleNewPosition plan context (some (cs "placed")) ss).1 =
        [⟨plan.orderType, FUTURES_SYMBOL, cs "sell",
            calculateTradeSize context.availableMargin context.lastPrice,
            if plan.orderType = cs "lmt" then plan.price else none, none⟩,
          ⟨cs "stp", FUTURES_SYMBOL, cs "buy",
            calculateTradeSize context.availableMargin context.lastPrice,
            some (((round (context.lastPrice * (1 + STOP_LOSS_PERCENT / 100)) : ℤ) + 1 : ℤ) : ℚ),
            some ((round (context.lastPrice * (1 + STOP_LOSS_PERCENT / 100)) : ℤ) : ℚ)⟩] := by
      simp [handleNewPosition, hnopos, hne, hs,
        show ¬cs "ENTER_SHORT" = cs "ENTER_LONG" from by decide]
    exact ⟨_, _, hres, rfl, rfl, rfl, rfl, fun hc => absurd hc hne2, fun _ => ⟨rfl, rfl, rfl⟩⟩

theorem c7_protective_stop_witness :
    ((Ctx.mk false 1000 50000 defaultNotes).hasOpenPosition = false ∧
      0 < calculateTradeSize 1000 50000 ∧
      (cs "ENTER_LONG" = cs "ENTER_LONG" ∨ cs "ENTER_LONG" = cs "ENTER_SHORT")) ∧
    (∃ entry stop : OrderReq,
      (handleNewPosition ⟨cs "ENTER_LONG", cs "mkt", cs "momentum", none⟩
        (Ctx.mk false 1000 50000 defaultNotes) (some (cs "placed")) none).1 = [entry, stop] ∧
      stop.orderType = cs "stp" ∧
      stop.symbol = FUTURES_SYMBOL ∧
      entry.size = calculateTradeSize 1000 50000 ∧
      stop.size = entry.size ∧
      (cs "ENTER_LONG" = cs "ENTER_LONG" →
        stop.side = cs "sell" ∧
        stop.stopPrice = some ((round ((50000 : ℚ) * (1 - STOP_LOSS_PERCENT / 100)) : ℤ) : ℚ) ∧
        stop.limitPrice =
          some (((round ((50000 : ℚ) * (1 - STOP_LOSS_PERCENT / 100)) : ℤ) - 1 : ℤ) : ℚ)) ∧
      (cs "ENTER_LONG" = cs "ENTER_SHORT" →
        stop.side = cs "buy" ∧
        stop.stopPrice = some ((round ((50000 : ℚ) * (1 + STOP_LOSS_PERCENT / 100)) : ℤ) : ℚ) ∧
        stop.limitPrice =
          some (((round ((50000 : ℚ) * (1 + STOP_LOSS_PERCENT / 100)) : ℤ) + 1 : ℤ) : ℚ))) :=
  ⟨⟨rfl, by
      rw [tradeSize_sample]; norm_num, Or.inl rfl⟩,
    c7_protective_stop ⟨cs "ENTER_LONG", cs "mkt", cs "momentum", none⟩
      (Ctx.mk false 1000 50000 defaultNotes) none rfl
      (by rw [tradeSize_sample]; norm_num)
      (Or.inl rfl)⟩

/-- C2: the Trade Memory written by `handleNewPosition` is byte-for-byte
independent of the protective stop order's acknowledgement status, and in the
scenario the claim describes — entry `'placed'`, stop rejected — the handler
returns the ordinary successful-entry notes (`result: "Open"`,
`"Successfully entered a ENTER_LONG position."`): no unprotected/degraded
condition is ever flagged. -/
theorem c2_stop_failure_not_flagged :
    (∀ (plan : Plan) (context : Ctx) (es ss ss' : Option (List Char)),
      handleNewPosition plan context es ss = handleNewPosition plan context es ss') ∧
    (handleNewPosition ⟨cs "ENTER_LONG", cs "mkt", cs "momentum", none⟩
        (Ctx.mk false 1000 50000 defaultNotes)
        (some (cs "placed")) (some (cs "cancelled"))).2 =
      .obj [
        (cs "lastTrade", .obj [
          (cs "action", .str (cs "ENTER_LONG")),
          (cs "result", .str (cs "Open")),
          (cs "reason", .str (cs "momentum")),
          (cs "entryPrice", .num 50000),
          (cs "exitPrice", .num 0)]),
        (cs "generalObservations",
          .str (cs "Successfully entered a ENTER_LONG position."))] := by
  constructor
  · intro plan context es ss ss'
    rfl
  · have hsz : calculateTradeSize (1000 : ℚ) 50000 = 1 / 100 := tradeSize_sample
    have hstr : cs "Successfully entered a " ++ (cs "ENTER_LONG" ++ cs " position.") =
        cs "Successfully entered a ENTER_LONG position." := by decide
    simp [handleNewPosition, hsz]
    norm_num [hstr]

/-- C3: `handlePositionExit` never cancels anything and never submits any
order — its order list is `[]` for every plan and context — and in the
protected-position exit scenario it returns only the previous notes with
`generalObservations` overwritten by the literal text
`"AI recommended an exit, but the logic is not yet implemented."`. -/
theorem c3_exit_not_implemented :
    (∀ (plan : Plan) (context : Ctx), (handlePositionExit plan context).1 = []) ∧
    handlePositionExit ⟨cs "EXIT_POSITION", cs "mkt", cs "take profit", none⟩
        (Ctx.mk true 1000 50000 defaultNotes) =
      ([], setField defaultNotes (cs "generalObservations")
        (.str (cs "AI recommended an exit, but the logic is not yet implemented."))) := by
  constructor
  · intro plan context
    by_cases h : context.hasOpenPosition <;> simp [handlePositionExit, h]
  · rfl

/-- C9: Trade Memory round-trips losslessly — for every memory value whose
numbers are finite decimals (true of every JS value), reading back what
`writeNotes` wrote returns the same value — and `readNotes` with no prior
record returns the documented default object. -/
theorem c9_memory_roundtrip (m : Json) (h : numsOkV m = true) :
    readNotes (writeNotes m) = m ∧ readNotes none = defaultNotes := by
  refine ⟨?_, rfl⟩
  simp only [writeNotes, readNotes, stringify_parse m h]

theorem c9_memory_roundtrip_witness :
    numsOkV defaultNotes = true ∧
    (readNotes (writeNotes defaultNotes) = defaultNotes ∧ readNotes none = defaultNotes) :=
  ⟨by simp [numsOkV, numsOkF, defaultNotes, numOk]; decide,
    c9_memory_roundtrip defaultNotes (by simp [numsOkV, numsOkF, defaultNotes, numOk]; decide)⟩

/-- C10: `readNotes` is total — it returns the fixed default object when the
file is absent and when its contents fail to parse as JSON, it returns the
parsed value exactly when parsing succeeds, and on the concretely corrupted
contents `"corrupted ###"` it silently yields the default. -/
theorem c10_read_notes_total :
    readNotes none = defaultNotes ∧
    (∀ text : List Char, jsonParse text = none → readNotes (some text) = defaultNotes) ∧
    (∀ (text : List Char) (v : Json), jsonParse text = some v → readNotes (some text) = v) ∧
    readNotes (some (cs "corrupted ###")) = defaultNotes := by
  refine ⟨rfl, ?_, ?_, rfl⟩
  · intro text h
    simp [readNotes, h]
  · intro text v h
    simp [readNotes, h]

theorem c10_read_notes_total_witness :
    readNotes (some (cs "not json at all")) = defaultNotes :=
  c10_read_notes_total.2.1 (cs "not json at all") rfl

end TB
